import Mathlib

set_option maxRecDepth 4000
set_option linter.unusedVariables false

/-!
Verification development for the weight-balanced B+-tree with bulk batch
updates and the Pareto queue layered on top of it.

The definitions below are shallow embeddings of the sequential
implementation (`SequentialBTree.hpp`): keys are natural numbers (the
implementation is generic over a totally ordered key type), machine
integers are modelled by `Nat`/`Int`, and the recursive bulk-update
algorithm is written as a fuelled functional program so that concrete
runs can be evaluated by the kernel.  Each embedded function carries a
comment naming the source function it translates.
-/

/-- Operation tag; the source enum `Operation::OpType` assigns
`INSERT = 1`, `DELETE = -1`. -/
inductive OperTy where
  | insert
  | delete
deriving DecidableEq, Repr

/-- Integer value of the enum tag (`INSERT = 1`, `DELETE = -1`),
used by the prefix-sum accumulation `val = val + updates[i].type`. -/
def opDelta : OperTy → ℤ
  | .insert => 1
  | .delete => -1

/-- `Operation<key_type>` with `key_type` instantiated to `ℕ`. -/
structure Oper where
  ty : OperTy
  data : ℕ
deriving DecidableEq, Repr

/-- `OperationBatchType`: `INSERTS_ONLY = 1`, `DELETES_ONLY = -1`,
`INSERTS_AND_DELETES = 2`. -/
inductive BatchTy where
  | insertsOnly
  | deletesOnly
  | mixed
deriving DecidableEq, Repr

/-- Integer value of the batch-type enum, used by the closed-form
weight delta `(upd_end - upd_begin) * batch_type`. -/
def batchVal : BatchTy → ℤ
  | .insertsOnly => 1
  | .deletesOnly => -1
  | .mixed => 2

/-- The loop body of `setOperationsAndComputeWeightDelta` in the mixed
case: starting from the running value `v` it produces the exclusive
prefix sum `weightdelta[0..n]` (`weightdelta[0] = v`, each following
entry adds the enum value of the operation). -/
def weightdeltaFrom (v : ℤ) : List Oper → List ℤ
  | [] => [v]
  | op :: rest => v :: weightdeltaFrom (v + opDelta op.ty) rest

/-- The `weightdelta` array computed by
`setOperationsAndComputeWeightDelta` for a mixed batch:
`weightdelta[0] = 0`, `weightdelta[i+1] = weightdelta[i] + type`. -/
def weightdelta (ops : List Oper) : List ℤ :=
  weightdeltaFrom 0 ops

/-- `getWeightDelta(upd_begin, upd_end)`: for a mixed batch the
difference of `weightdelta` entries, otherwise the closed form
`(upd_end - upd_begin) * batch_type` (no array is consulted). -/
def getWeightDelta (bt : BatchTy) (wd : List ℤ) (i j : ℕ) : ℤ :=
  if bt = .mixed then wd.getD j 0 - wd.getD i 0
  else ((j - i : ℕ) : ℤ) * batchVal bt

/-- Loop of the source's `ipow` (fast exponentiation by squaring).
The loop halves `exp` each iteration, so `fuel = exp` always suffices;
when fuel is exhausted the accumulated `result` is returned. -/
def ipowGo : ℕ → ℕ → ℕ → ℕ → ℕ
  | 0, result, _, _ => result
  | _ + 1, result, _, 0 => result
  | fuel + 1, result, base, exp =>
      ipowGo fuel (if exp % 2 = 1 then result * base else result) (base * base) (exp / 2)

/-- `ipow(base, exp)` from the source. -/
def ipow (base exp : ℕ) : ℕ :=
  ipowGo exp 1 base exp

/-- `leafslotmax = traits::leafparameter_k` (the traits already apply
`BTREE_MAX(8, LEAF_PARAMETER_K)`, so `k` here denotes that maximum). -/
def leafslotmax (k : ℕ) : ℕ := k

/-- `leafslotmin = traits::leafparameter_k / 4`. -/
def leafslotmin (k : ℕ) : ℕ := k / 4

/-- `designated_leafsize = (leafslotmax + leafslotmin) / 2`. -/
def designated_leafsize (k : ℕ) : ℕ :=
  (leafslotmax k + leafslotmin k) / 2

/-- `innerslotmax = traits::branchingparameter_b * 4`. -/
def innerslotmax (b : ℕ) : ℕ := b * 4

/-- `minweight(level) = ipow(b, level) * k / 4`. -/
def minweight (b k level : ℕ) : ℕ :=
  ipow b level * k / 4

/-- `maxweight(level) = ipow(b, level) * k`. -/
def maxweight (b k level : ℕ) : ℕ :=
  ipow b level * k

/-- `num_subtrees(n, subtreesize)` from the sequential source: the
quotient, plus one when the remainder is at least as close to
`subtreesize` as its deficit, plus the final correction
`num_subtrees += n > 0 && num_subtrees == 0`. -/
def num_subtrees (n subtreesize : ℕ) : ℕ :=
  let base := n / subtreesize
  let remaining := n % subtreesize
  let withExtra := base + (if subtreesize - remaining ≤ remaining then 1 else 0)
  withExtra + (if 0 < n ∧ withExtra = 0 then 1 else 0)

/-- `designated_subtreesize(level)` from the sequential source:
`(maxweight(level-1) + minweight(level-1)) / 2` rounded to a multiple
of `designated_leafsize`, choosing round-up when the remainder is at
least the deficit. -/
def designated_subtreesize (b k level : ℕ) : ℕ :=
  let numToRound := (maxweight b k (level - 1) + minweight b k (level - 1)) / 2
  let remaining := numToRound % designated_leafsize k
  if remaining = 0 then numToRound
  else
    numToRound - remaining +
      designated_leafsize k * (if designated_leafsize k - remaining ≤ remaining then 1 else 0)

/-- Fuelled version of the ceiling base-`b` logarithm (the recursion of
`Nat.clog`); written with explicit fuel so that the kernel can evaluate
it on concrete inputs. -/
def clogGo (b : ℕ) : ℕ → ℕ → ℕ
  | 0, _ => 0
  | fuel + 1, n => if 1 < b ∧ 1 < n then clogGo b fuel ((n + b - 1) / b) + 1 else 0

/-- Ceiling base-`b` logarithm, `⌈log_b n⌉` for `n ≥ 1`. -/
def ceilLog (b n : ℕ) : ℕ :=
  clogGo b n n

/-- `num_optimal_levels(n)` from the sequential source.  The source
computes `ceil(log((8.0*n)/(5.0*k)) / log(b))` with double-precision
reals; this embedding evaluates the same quantity exactly as
`⌈log_b ⌈8n / 5k⌉⌉`, which is the least `L` with `8n ≤ 5k·b^L` (the
two agree whenever the floating-point logarithms are rounded
faithfully).  Note that the sequential source performs no
"reduce by one when a single subtree results" adjustment. -/
def num_optimal_levels (b k n : ℕ) : ℕ :=
  if n ≤ designated_leafsize k then 0
  else ceilLog b ((8 * n + (5 * k - 1)) / (5 * k))

/-- The level computation described by the specification: the same
ceiling logarithm, but reduced by one exactly when `num_subtrees` at
that level's designated subtree size is `1`.  (This matches the
parallel variant's `opt_levels -= num_subtrees(...) == 1`; it is stated
here to be compared against the sequential `num_optimal_levels`.) -/
def spec_optimal_levels (b k n : ℕ) : ℕ :=
  if n ≤ designated_leafsize k then 0
  else
    let lvl := ceilLog b ((8 * n + (5 * k - 1)) / (5 * k))
    lvl - (if num_subtrees n (designated_subtreesize b k lvl) = 1 then 1 else 0)

/-- `find_lower(lo, hi, key)` of the sequential source computes its
midpoint as `(lo + hi) >> 1` on (32-bit) `int`.  This models that
midpoint computation: two's-complement wrap-around of the sum followed
by an arithmetic shift right (floor division by two). -/
def findLowerMidInt (lo hi : ℤ) : ℤ :=
  Int.fdiv ((lo + hi + 2 ^ 31) % 2 ^ 32 - 2 ^ 31) 2

/-- Binary-search loop of the sequential `find_lower(lo, hi, key)`,
returning the first index in `[lo, hi]` whose operation key is greater
than `key` (an upper bound).  The interval shrinks every iteration, so
`fuel = hi - lo + 1` suffices; indices are natural numbers here (the
`int` overflow of the source's midpoint is modelled separately by
`findLowerMidInt`). -/
def findLowerGo (ops : List Oper) (key : ℕ) : ℕ → ℕ → ℕ → ℕ
  | 0, _, hi => hi
  | fuel + 1, lo, hi =>
      if lo < hi then
        let mid := (lo + hi) / 2
        if key < (ops.getD mid ⟨.insert, 0⟩).data then findLowerGo ops key fuel lo mid
        else findLowerGo ops key fuel (mid + 1) hi
      else hi

/-- `find_lower(lo, hi, key)` from the sequential source. -/
def find_lower (ops : List Oper) (lo hi key : ℕ) : ℕ :=
  findLowerGo ops key (hi - lo + 1) lo hi

/-- Tree nodes.  A leaf stores its keys in slot order; an inner node
stores its level and its slots `(router, weight, child)` — mirroring
`inner_node_data` without the Pareto `minimum` field (the sequential
tree is compiled without `COMPUTE_PARETO_MIN`). -/
inductive BNode where
  | lf (keys : List ℕ)
  | inn (level : ℕ) (slots : List (ℕ × ℕ × BNode))
deriving Repr

/-- `node::level`: leaves are level 0. -/
def nodeLevel : BNode → ℕ
  | .lf _ => 0
  | .inn level _ => level

/-- `UpdateDescriptor`: update range, post-update weight, and the
rebalancing flag. -/
structure Desc where
  b : ℕ
  e : ℕ
  w : ℕ
  reb : Bool
deriving Repr

/-- The per-call context of a bulk update: tree parameters, the batch
(`updates` pointer), its type and the weight-delta array. -/
structure UpdCtx where
  b : ℕ
  k : ℕ
  ops : List Oper
  bt : BatchTy
  wd : List ℤ

/-- Mutable state threaded through the recursive update: the current
reconstruction leaves (`btree::leaves`, each as written buffer plus
`slotuse`) and the spare leaf's contents. -/
structure RState where
  leaves : List (List ℕ × ℕ)
  spare : List ℕ

/-- Result of the recursive `update` on one slot: the new child (none
when the subtree was consumed by a rewrite), the new router key, and
the threaded state. -/
structure URes where
  child : Option BNode
  router : ℕ
  st : RState

/-- `scheduleSubTreeUpdate`: record the range, the new weight
`weight + getWeightDelta(begin, end)` (an unsigned quantity in the
source; clamped at zero here) and whether it violates the bounds. -/
def scheduleSubTreeUpdate (bt : BatchTy) (wd : List ℤ) (minw maxw weight sb se : ℕ) : Desc :=
  let w := ((weight : ℤ) + getWeightDelta bt wd sb se).toNat
  ⟨sb, se, w, decide (w < minw ∨ maxw < w)⟩

/-- The distribution loop of `update`: every slot except the last gets
the range up to `find_lower(subupd_begin, upd_end, slotkey)`, the last
slot gets the rest. -/
def computeDescs (ops : List Oper) (bt : BatchTy) (wd : List ℤ) (minw maxw updE : ℕ) :
    ℕ → List (ℕ × ℕ × BNode) → List Desc
  | _, [] => []
  | sb, [s] => [scheduleSubTreeUpdate bt wd minw maxw s.2.1 sb updE]
  | sb, s :: rest =>
      let se := find_lower ops sb updE s.1
      scheduleSubTreeUpdate bt wd minw maxw s.2.1 sb se ::
        computeDescs ops bt wd minw maxw updE se rest

/-- The merge loop shared by the two leaf update routines: process the
operations in order against the sorted residue of the old leaf.  A
DELETE copies keys strictly below its target and then skips one key
(the source performs no bounds check there: the target is known to be
present); an INSERT copies keys strictly below its key and then emits
the key.  The final base case is the source's tail `memcpy`. -/
def mergeLeafGo (leafc : List ℕ) : List Oper → List ℕ
  | [] => leafc
  | op :: rest =>
      match op.ty with
      | .delete =>
          leafc.takeWhile (· < op.data) ++
            mergeLeafGo ((leafc.dropWhile (· < op.data)).drop 1) rest
      | .insert =>
          leafc.takeWhile (· < op.data) ++
            op.data :: mergeLeafGo (leafc.dropWhile (· < op.data)) rest

/-- `update_leaf_in_current_tree(slot, upd)`: the merged output is
written into the worker's spare leaf, the router becomes the merged
leaf's last key, and then spare and original are swapped
(`spare_leaf = slot.childid; slot.childid = result`).  Returned as
(new slot leaf, new spare contents, router). -/
def update_leaf_in_current_tree (spare leafc : List ℕ) (opsr : List Oper) :
    List ℕ × List ℕ × ℕ :=
  let result := mergeLeafGo leafc opsr
  (result, leafc, result.getLastD 0)

/-- Write `x` at position `pos` of a leaf buffer (the source writes
into a fixed `slotkey` array whose cells are default-initialised; out
of range positions extend the buffer with zeros). -/
def lwrite (l : List ℕ) (pos x : ℕ) : List ℕ :=
  if pos < l.length then l.set pos x
  else l ++ List.replicate (pos - l.length) 0 ++ [x]

/-- Write into leaf `i` of the reconstruction leaves. -/
def leafWrite (leaves : List (List ℕ × ℕ)) (i pos x : ℕ) : List (List ℕ × ℕ) :=
  match leaves.get? i with
  | none => leaves
  | some (buf, used) => leaves.set i (lwrite buf pos x, used)

/-- Set `slotuse` of leaf `i`. -/
def leafSetUsed (leaves : List (List ℕ × ℕ)) (i used : ℕ) : List (List ℕ × ℕ) :=
  match leaves.get? i with
  | none => leaves
  | some (buf, _) => leaves.set i (buf, used)

/-- `hasNextLeaf(leaf_count)`: `leaf_count + 1 < leaves.size()`. -/
def hasNextLeaf (ln count : ℕ) : Bool :=
  ln + 1 < count

/-- Cursor state of `write_updated_leaf_to_new_tree`: the leaves, the
current destination leaf number and the write position in it. -/
structure WSt where
  leaves : List (List ℕ × ℕ)
  ln : ℕ
  out : ℕ

/-- One `result->slotkey[out++] = x` of the rewrite loops, followed by
the advance `if (out == designated_leafsize && hasNextLeaf) ...`. -/
def emitKey (D : ℕ) (s : WSt) (x : ℕ) : WSt :=
  let leaves1 := leafWrite s.leaves s.ln s.out x
  let out1 := s.out + 1
  if out1 = D ∧ hasNextLeaf s.ln leaves1.length then
    ⟨leafSetUsed leaves1 s.ln D, s.ln + 1, 0⟩
  else ⟨leaves1, s.ln, out1⟩

/-- Emit a run of copied keys. -/
def emitAll (D : ℕ) (s : WSt) (xs : List ℕ) : WSt :=
  xs.foldl (emitKey D) s

/-- The tail copy loop of `write_updated_leaf_to_new_tree`; its
advance check additionally requires that another key remains
(`in < leaf->slotuse`). -/
def tailCopy (D : ℕ) : WSt → List ℕ → WSt
  | s, [] => s
  | s, x :: xs =>
      let leaves1 := leafWrite s.leaves s.ln s.out x
      let out1 := s.out + 1
      if out1 = D ∧ hasNextLeaf s.ln leaves1.length ∧ xs ≠ [] then
        tailCopy D ⟨leafSetUsed leaves1 s.ln D, s.ln + 1, 0⟩ xs
      else tailCopy D ⟨leaves1, s.ln, out1⟩ xs

/-- The operation loop of `write_updated_leaf_to_new_tree`: like
`mergeLeafGo`, but streaming every produced key through `emitKey`.
Returns the cursor and the unconsumed residue of the old leaf. -/
def wulOps (D : ℕ) : WSt → List ℕ → List Oper → WSt × List ℕ
  | s, ins, [] => (s, ins)
  | s, ins, op :: rest =>
      match op.ty with
      | .delete =>
          let s1 := emitAll D s (ins.takeWhile (· < op.data))
          wulOps D s1 ((ins.dropWhile (· < op.data)).drop 1) rest
      | .insert =>
          let s1 := emitAll D s (ins.takeWhile (· < op.data))
          wulOps D (emitKey D s1 op.data) (ins.dropWhile (· < op.data)) rest

/-- Starting destination of `write_updated_leaf_to_new_tree`:
`leaf_number = rank / designated_leafsize` with its offset, clamped
into the last leaf (where the remainder is squeezed) when that index
reaches the leaf count. -/
def initial_leaf_number (D rank len : ℕ) : ℕ × ℕ :=
  let ln0 := rank / D
  if len ≤ ln0 then (len - 1, rank - (len - 1) * D)
  else (ln0, rank % D)

/-- `write_updated_leaf_to_new_tree(node, rank, upd)`: compute the
starting destination leaf and offset (clamping into the last leaf when
the rank reaches the squeezed remainder), stream the merged output,
and set the final leaf's `slotuse`. -/
def write_updated_leaf_to_new_tree (c : UpdCtx) (leaves : List (List ℕ × ℕ))
    (keys : List ℕ) (rank updB updE : ℕ) : List (List ℕ × ℕ) :=
  let D := designated_leafsize c.k
  let (ln, off) := initial_leaf_number D rank leaves.length
  let opsr := (c.ops.take updE).drop updB
  let (s1, insLeft) := wulOps D ⟨leaves, ln, off⟩ keys opsr
  let s2 := tailCopy D s1 insLeft
  leafSetUsed s2.leaves s2.ln s2.out

/-- Slot-building loop of `create_subtree_from_leaves` for an inner
node: `count` slots, each of the designated weight except the last,
whose child is produced by `mk` (the recursive call one level down). -/
def csflSlots (mk : ℕ → ℕ → ℕ × BNode) : ℕ → ℕ → ℕ → ℕ → List (ℕ × ℕ × BNode)
  | 0, _, _, _ => []
  | count + 1, rank, rankE, dst =>
      let weight := if count = 0 then rankE - rank else dst
      let (router, child) := mk rank (rank + weight)
      (router, weight, child) :: csflSlots mk count (rank + weight) rankE dst

/-- Fuelled core of `create_subtree_from_leaves` (fuel bounds the
level recursion; `level + 1` always suffices).  At level 0 the
pre-filled leaf `leaves[rank_begin / designated_leafsize]` becomes the
node; at higher levels `num_subtrees` children of the designated
subtree size are built.  Returns (router, node). -/
def createGo (b k : ℕ) (leaves : List (List ℕ × ℕ)) : ℕ → ℕ → ℕ → ℕ → ℕ × BNode
  | 0, _, _, _ => (0, .lf [])
  | _ + 1, 0, rankB, _ =>
      let lb := leaves.getD (rankB / designated_leafsize k) ([], 0)
      let keys := lb.1.take lb.2
      (keys.getLastD 0, .lf keys)
  | fuel + 1, level + 1, rankB, rankE =>
      let n := rankE - rankB
      let dst := designated_subtreesize b k (level + 1)
      let subtrees := num_subtrees n dst
      let slots := csflSlots (fun rB rE => createGo b k leaves fuel level rB rE)
        subtrees rankB rankE dst
      ((slots.getLastD (0, 0, .lf [])).1, .inn (level + 1) slots)

/-- `create_subtree_from_leaves(slot, false, level, rank_begin,
rank_end)`. -/
def create_subtree_from_leaves (b k : ℕ) (leaves : List (List ℕ × ℕ))
    (level rankB rankE : ℕ) : ℕ × BNode :=
  createGo b k leaves (level + 1) level rankB rankE

/-- `updateSubTreesInRange`: iterate the zipped (slot, descriptor)
range.  A zero-weight subtree is freed (`clear_recursive`) and its
slot left untouched; a slot with updates (or under a rewrite) is
recursed into via `go` and receives the new router, weight and child;
other slots are kept.  `subtree_rank` advances by each new weight. -/
def upSubRangeWith (go : RState → BNode → ℕ → ℕ → ℕ → Bool → URes)
    (st : RState) (rank : ℕ) (rewrite : Bool) :
    List ((ℕ × ℕ × BNode) × Desc) → List (ℕ × ℕ × BNode) × RState
  | [] => ([], st)
  | (slot, d) :: rest =>
      if d.w = 0 then
        let (ss, st1) := upSubRangeWith go st (rank + d.w) rewrite rest
        (slot :: ss, st1)
      else if rewrite ∨ d.b ≠ d.e then
        let r := go st slot.2.2 rank d.b d.e rewrite
        let (ss, st1) := upSubRangeWith go r.st (rank + d.w) rewrite rest
        ((r.router, d.w, r.child.getD slot.2.2) :: ss, st1)
      else
        let (ss, st1) := upSubRangeWith go st (rank + d.w) rewrite rest
        (slot :: ss, st1)

/-- Extract the maximal rebalancing run: consume while the slot needs
rebalancing or the open run's accumulated weight is a nonzero deficit
below the designated subtree size.  Returns (run, run weight, rest). -/
def takeRun (dst : ℕ) : List ((ℕ × ℕ × BNode) × Desc) → Bool → ℕ →
    List ((ℕ × ℕ × BNode) × Desc) × ℕ × List ((ℕ × ℕ × BNode) × Desc)
  | [], _, wdef => ([], wdef, [])
  | x :: rest, opened, wdef =>
      if x.2.reb ∨ (opened ∧ wdef ≠ 0 ∧ wdef < dst) then
        let (run, w, rem) := takeRun dst rest true (wdef + x.2.w)
        (x :: run, w, rem)
      else ([], wdef, x :: rest)

/-- The rewrite-session loop of `update` (the `while (in < slotuse)`
walk building `result`).  A slot that opens no run is copied (patched
in place when it has updates, its weight updated); a run of weight 0
is freed wholesale; otherwise fresh leaves are allocated for the run's
weight, the run is streamed into them with rewrite semantics, and
`create_subtree_from_leaves` splices the rebuilt subtrees into the
output.  `fuel` bounds the outer iteration count (the slot count
suffices, as each iteration consumes at least one input slot). -/
def rebWalk (go : RState → BNode → ℕ → ℕ → ℕ → Bool → URes) (b k : ℕ)
    (level dst : ℕ) : ℕ → RState → List ((ℕ × ℕ × BNode) × Desc) →
    List (ℕ × ℕ × BNode) × RState
  | 0, st, _ => ([], st)
  | _ + 1, st, [] => ([], st)
  | fuel + 1, st, (slot, d) :: rest =>
      if d.reb then
        let (run, wdef, rem) := takeRun dst ((slot, d) :: rest) false 0
        if wdef = 0 then rebWalk go b k level dst fuel st rem
        else
          let fresh : RState :=
            ⟨List.replicate (num_subtrees wdef (designated_leafsize k)) (([] : List ℕ), 0),
              st.spare⟩
          let (_, st1) := upSubRangeWith go fresh 0 true run
          let newSlots := csflSlots (fun rB rE => createGo b k st1.leaves level (level - 1) rB rE)
            (num_subtrees wdef dst) 0 wdef dst
          let (ss, st2) := rebWalk go b k level dst fuel st1 rem
          (newSlots ++ ss, st2)
      else
        let (slot1, st1) :=
          if d.b ≠ d.e then
            let r := go st slot.2.2 0 d.b d.e false
            (((r.router, d.w, r.child.getD slot.2.2) : ℕ × ℕ × BNode), r.st)
          else ((slot.1, d.w, slot.2.2), st)
        let (ss, st2) := rebWalk go b k level dst fuel st1 rest
        (slot1 :: ss, st2)

/-- The recursive `update(slot, rank, upd, rewrite_subtree)`, fuelled
(fuel bounds the tree height; it exceeds every tree built in this
file).  A leaf is either streamed to the new tree (and freed) or
patched in place through the spare leaf.  An inner node distributes
the batch over its children with `find_lower`, then either pushes all
updates down (no rebalancing needed, or this subtree is itself being
rewritten — in which case the node is consumed), or runs the
rewrite-session walk. -/
def updateRec (c : UpdCtx) : ℕ → RState → BNode → ℕ → ℕ → ℕ → Bool → URes
  | 0, st, nd, _, _, _, _ => ⟨some nd, 0, st⟩
  | fuel + 1, st, nd, rank, updB, updE, rewrite =>
      match nd with
      | .lf keys =>
          if rewrite then
            ⟨none, keys.getLastD 0,
              { st with leaves := write_updated_leaf_to_new_tree c st.leaves keys rank updB updE }⟩
          else
            let opsr := (c.ops.take updE).drop updB
            let (merged, newSpare, router) := update_leaf_in_current_tree st.spare keys opsr
            ⟨some (.lf merged), router, { st with spare := newSpare }⟩
      | .inn level slots =>
          let minw := minweight c.b c.k (level - 1)
          let maxw := maxweight c.b c.k (level - 1)
          let descs := computeDescs c.ops c.bt c.wd minw maxw updE updB slots
          if descs.all (fun d => !d.reb) ∨ rewrite then
            let (newSlots, st1) :=
              upSubRangeWith (updateRec c fuel) st rank rewrite (slots.zip descs)
            ⟨if rewrite then none else some (.inn level newSlots),
              (newSlots.getLastD (0, 0, .lf [])).1, st1⟩
          else
            let dst := designated_subtreesize c.b c.k level
            let (newSlots, st1) :=
              rebWalk (updateRec c fuel) c.b c.k level dst (slots.length + 1) st
                (slots.zip descs)
            ⟨some (.inn level newSlots), (newSlots.getLastD (0, 0, .lf [])).1, st1⟩

/-- The tree object's externally visible state: the root pointer and
`stats.itemcount`. -/
structure TreeState where
  root : Option BNode
  itemcount : ℕ
deriving Repr

/-- `size()`: returns `stats.itemcount`. -/
def size (st : TreeState) : ℕ :=
  st.itemcount

/-- `empty()`: `size() == 0`. -/
def empty (st : TreeState) : Bool :=
  size st == 0

/-- `clear()`: recursively frees all nodes and sets `root = NULL`.
`stats.itemcount` is not touched. -/
def clear (st : TreeState) : TreeState :=
  ⟨none, st.itemcount⟩

/-- `apply_updates(updates, batch_type)`.  Computes the weight delta
and the new size, stores it into `stats.itemcount` first, clears the
tree if the new size is zero, and otherwise decides between the
root-rebuild path (fresh leaves for the whole tree, rewrite, then
`create_subtree_from_leaves`) and the in-place update path.  The
returned Boolean records whether the root-rebuild path ran. -/
def apply_updates (b k fuel : ℕ) (st : TreeState) (ops : List Oper) (bt : BatchTy) :
    TreeState × Bool :=
  let wd := if bt = .mixed then weightdelta ops else []
  let newSize := ((st.itemcount : ℤ) + getWeightDelta bt wd 0 ops.length).toNat
  let st1 : TreeState := ⟨st.root, newSize⟩
  if newSize = 0 then (clear st1, false)
  else
    let root0 := st1.root.getD (.lf [])
    let level := num_optimal_levels b k newSize
    let rebuild :=
      (level < nodeLevel root0 ∧ size st1 < minweight b k (nodeLevel root0)) ∨
        maxweight b k (nodeLevel root0) < size st1
    let c : UpdCtx := ⟨b, k, ops, bt, wd⟩
    if rebuild then
      let leaves0 :=
        List.replicate (num_subtrees newSize (designated_leafsize k)) (([] : List ℕ), 0)
      let r := updateRec c fuel ⟨leaves0, []⟩ root0 0 0 ops.length true
      let (_, newRoot) := create_subtree_from_leaves b k r.st.leaves level 0 newSize
      (⟨some newRoot, newSize⟩, true)
    else
      let r := updateRec c fuel ⟨[], []⟩ root0 0 0 ops.length false
      (⟨r.child, newSize⟩, false)

/-- Exact number of keys below a node (bounded by fuel). -/
def countKeys : ℕ → BNode → ℕ
  | 0, _ => 0
  | _ + 1, .lf keys => keys.length
  | fuel + 1, .inn _ slots => (slots.map fun s => countKeys fuel s.2.2).sum

/-- The weight invariant of the specification, as a checker: every
node on level `ℓ` has `weight ≤ maxweight(ℓ)`, and every non-root node
additionally has `minweight(ℓ) ≤ weight`, where weight is the exact
key count of the subtree. -/
def weightBoundsOK (b k : ℕ) : ℕ → Bool → BNode → Bool
  | 0, _, _ => true
  | _ + 1, isRoot, .lf keys =>
      (isRoot || decide (minweight b k 0 ≤ keys.length)) &&
        decide (keys.length ≤ maxweight b k 0)
  | fuel + 1, isRoot, .inn level slots =>
      ((isRoot || decide (minweight b k level ≤ (slots.map fun s => countKeys fuel s.2.2).sum)) &&
          decide ((slots.map fun s => countKeys fuel s.2.2).sum ≤ maxweight b k level)) &&
        slots.all fun s => weightBoundsOK b k fuel false s.2.2

/-- Pareto-queue key: `{node, first_weight, second_weight}`, compared
lexicographically by `(first_weight, second_weight, node)`
(`BTreeSetOrderer`). -/
structure PKey where
  node : ℕ
  first_weight : ℕ
  second_weight : ℕ
deriving DecidableEq, Repr

/-- The minimum descriptor (`min_key_type`): the two weights of a key. -/
structure MinKey where
  first_weight : ℕ
  second_weight : ℕ
deriving DecidableEq, Repr

/-- Projection of a key to its minimum descriptor. -/
def minKeyOf (key : PKey) : MinKey :=
  ⟨key.first_weight, key.second_weight⟩

/-- `BTreeSetOrderer`: strict lexicographic order by
`(first_weight, second_weight, node)`. -/
def keyLt (i j : PKey) : Prop :=
  i.first_weight < j.first_weight ∨
    (i.first_weight = j.first_weight ∧
      (i.second_weight < j.second_weight ∨
        (i.second_weight = j.second_weight ∧ i.node < j.node)))

instance : DecidableRel keyLt := fun i j => by
  unfold keyLt; exact inferInstance

/-- The dominance order of the specification on minimum descriptors:
`a` dominates `c` iff `a.first ≤ c.first ∧ a.second ≤ c.second ∧ a ≠ c`. -/
def dominates (a c : MinKey) : Prop :=
  a.first_weight ≤ c.first_weight ∧ a.second_weight ≤ c.second_weight ∧ a ≠ c

instance (a c : MinKey) : Decidable (dominates a c) := by
  unfold dominates; exact inferInstance

/-- A key of `L` is a Pareto minimum when no key of `L` dominates its
descriptor. -/
def isParetoMinimal (key : PKey) (L : List PKey) : Prop :=
  ∀ j ∈ L, ¬ dominates (minKeyOf j) (minKeyOf key)

instance (key : PKey) (L : List PKey) : Decidable (isParetoMinimal key L) := by
  unfold isParetoMinimal; exact inferInstance

/-- The emission/descent test of `find_pareto_minima`:
`x.second_weight < min->second_weight || (x.first_weight ==
min->first_weight && x.second_weight == min->second_weight)`. -/
def minCond (m p : MinKey) : Prop :=
  m.second_weight < p.second_weight ∨
    (m.first_weight = p.first_weight ∧ m.second_weight = p.second_weight)

instance (m p : MinKey) : Decidable (minCond m p) := by
  unfold minCond; exact inferInstance

/-- The width of the unsigned weight type: the sentinel passed by the
Pareto queue is `(numeric_limits<weight_type>::min(),
numeric_limits<weight_type>::max())` with a 32-bit `weight_type`. -/
def sentinelSecond : ℕ :=
  2 ^ 32 - 1

/-- The `min_label` sentinel `(0, numeric_limits::max())`. -/
def sentinelMin : MinKey :=
  ⟨0, sentinelSecond⟩

/-- `Operation<key_type>` over Pareto keys, as pushed into the minima
sequence (`{Operation::DELETE, leaf->slotkey[i]}`). -/
structure POper where
  ty : OperTy
  data : PKey
deriving DecidableEq, Repr

/-- Pareto tree nodes: a leaf holds its keys, an inner node holds
slots `(minimum, child)` (router keys and weights are irrelevant to
the minima traversal and omitted). -/
inductive PTree where
  | lf (keys : List PKey)
  | inn (slots : List (MinKey × PTree))

/-- Leaf loop of `find_pareto_minima`: scan the keys in slot order
with a running prefix minimum, emit a DELETE for each key passing
`minCond`, and advance the minimum to that key. -/
def fpmLeaf : List PKey → MinKey → List POper
  | [], _ => []
  | key :: rest, pfx =>
      if minCond (minKeyOf key) pfx then ⟨.delete, key⟩ :: fpmLeaf rest (minKeyOf key)
      else fpmLeaf rest pfx

mutual
/-- `find_pareto_minima(node, prefix_minima, minima)`: leaves are
scanned by `fpmLeaf`; for an inner node each slot whose aggregate
minimum passes `minCond` is descended into with the current prefix
minimum, which is then advanced to that slot's minimum. -/
def find_pareto_minima : PTree → MinKey → List POper
  | .lf keys, pfx => fpmLeaf keys pfx
  | .inn slots, pfx => fpmInner slots pfx
termination_by t _ => sizeOf t

/-- Slot loop of `find_pareto_minima` on an inner node. -/
def fpmInner : List (MinKey × PTree) → MinKey → List POper
  | [], _ => []
  | (m, c) :: rest, pfx =>
      if minCond m pfx then find_pareto_minima c pfx ++ fpmInner rest m
      else fpmInner rest pfx
termination_by l _ => sizeOf l
end

mutual
/-- All keys of a Pareto tree in traversal (slot) order. -/
def flattenT : PTree → List PKey
  | .lf keys => keys
  | .inn slots => flattenS slots
termination_by t => sizeOf t

/-- Keys under a slot list, in order. -/
def flattenS : List (MinKey × PTree) → List PKey
  | [] => []
  | (_, c) :: rest => flattenT c ++ flattenS rest
termination_by l => sizeOf l
end

/-- `std::min_element` by `second_weight` (first minimal element wins,
as in `set_min_element`). -/
def firstMinSnd : List PKey → Option PKey
  | [] => none
  | k :: rest =>
      match firstMinSnd rest with
      | none => some k
      | some m => if k.second_weight ≤ m.second_weight then some k else some m

/-- The aggregate-minimum invariant of §3: every slot's stored
`minimum` is the descriptor of the first key of its subtree achieving
the minimal `second_weight` (which `set_min_element` maintains). -/
inductive MinimaOK : PTree → Prop where
  | lf (keys : List PKey) : MinimaOK (.lf keys)
  | inn (slots : List (MinKey × PTree))
      (hrec : ∀ s ∈ slots, MinimaOK s.2)
      (hmin : ∀ s ∈ slots, ∃ key, firstMinSnd (flattenT s.2) = some key ∧ s.1 = minKeyOf key) :
      MinimaOK (.inn slots)

/-- One step of the running prefix minimum (`min = &leaf->slotkey[i]`
exactly when the emission test passed). -/
def stepMin (p : MinKey) (key : PKey) : MinKey :=
  if minCond (minKeyOf key) p then minKeyOf key else p

/-- The running prefix minimum after scanning `L`. -/
def sweepState (p : MinKey) (L : List PKey) : MinKey :=
  L.foldl stepMin p

/-- First batch of the concrete weight-invariant scenario: bulk-insert
the keys 1..65 (with `k = b = 8` this builds a level-2 tree of
13 leaves). -/
def c2batch1 : List Oper :=
  (List.range 65).map (fun i => ⟨.insert, i + 1⟩)

/-- Second batch: delete 62..65, draining the last leaf to one key. -/
def c2batch2 : List Oper :=
  [⟨.delete, 62⟩, ⟨.delete, 63⟩, ⟨.delete, 64⟩, ⟨.delete, 65⟩]

/-- The tree state after applying both batches from the empty tree. -/
def c2run : TreeState :=
  (apply_updates 8 8 8 (apply_updates 8 8 8 ⟨none, 0⟩ c2batch1 .insertsOnly).1
    c2batch2 .deletesOnly).1


/-- The contexts in which `find_pareto_minima` ever consults a prefix
minimum `p` against keys `L`: either `p` strictly exceeds every
second weight (the sentinel case), or `p` is the descriptor of some
key lying strictly before all of `L` in the tree order. -/
def PfxOK (p : MinKey) (L : List PKey) : Prop :=
  (∀ key ∈ L, key.second_weight < p.second_weight) ∨
  (∃ k0 : PKey, minKeyOf k0 = p ∧ ∀ key ∈ L, keyLt k0 key)

/-! ### Arithmetic facts about the embedded helpers -/

theorem ipowGo_eq :
    ∀ fuel result base exp : ℕ, exp ≤ fuel → ipowGo fuel result base exp = result * base ^ exp := by
  intro fuel
  induction fuel with
  | zero =>
      intro r b e he
      have he0 : e = 0 := by omega
      subst he0
      simp [ipowGo]
  | succ f ih =>
      intro r b e he
      rcases e with _ | e
      · simp [ipowGo]
      · rw [show ipowGo (f + 1) r b (e + 1) =
            ipowGo f (if (e + 1) % 2 = 1 then r * b else r) (b * b) ((e + 1) / 2) from rfl]
        rw [ih _ _ _ (by omega)]
        have hmod := Nat.div_add_mod (e + 1) 2
        by_cases hm : (e + 1) % 2 = 1
        · rw [if_pos hm]
          have hsplit : e + 1 = 2 * ((e + 1) / 2) + 1 := by omega
          rw [show b * b = b ^ 2 from (sq b).symm, ← pow_mul]
          calc r * b * b ^ (2 * ((e + 1) / 2)) = r * b ^ (2 * ((e + 1) / 2) + 1) := by
                rw [pow_succ]; ring
            _ = r * b ^ (e + 1) := by rw [← hsplit]
        · rw [if_neg hm]
          have hsplit : e + 1 = 2 * ((e + 1) / 2) := by omega
          rw [show b * b = b ^ 2 from (sq b).symm, ← pow_mul, ← hsplit]

theorem ipow_eq_pow (base exp : ℕ) : ipow base exp = base ^ exp := by
  have h := ipowGo_eq exp 1 base exp le_rfl
  simpa [ipow] using h

theorem minweight_eq (b k level : ℕ) : minweight b k level = b ^ level * k / 4 := by
  rw [minweight, ipow_eq_pow]

theorem maxweight_eq (b k level : ℕ) : maxweight b k level = b ^ level * k := by
  rw [maxweight, ipow_eq_pow]

theorem clogGo_eq (b : ℕ) : ∀ fuel n : ℕ, n ≤ fuel → clogGo b fuel n = Nat.clog b n := by
  intro fuel
  induction fuel with
  | zero =>
      intro n hn
      have h0 : n = 0 := by omega
      subst h0
      simp [clogGo]
  | succ f ih =>
      intro n hn
      rw [clogGo]
      by_cases h : 1 < b ∧ 1 < n
      · have hlt := Nat.add_pred_div_lt h.1 h.2
        rw [if_pos h, ih _ (by omega), Nat.clog_of_two_le h.1 h.2]
      · rw [if_neg h]
        rcases not_and_or.mp h with hb | hn1
        · exact (Nat.clog_of_left_le_one (by omega) n).symm
        · exact (Nat.clog_of_right_le_one (by omega) b).symm

theorem ceilLog_eq_clog (b n : ℕ) : ceilLog b n = Nat.clog b n :=
  clogGo_eq b n n le_rfl

theorem ceilDiv_le_iff (a c x : ℕ) (hc : 0 < c) : (a + (c - 1)) / c ≤ x ↔ a ≤ c * x := by
  rw [Nat.div_le_iff_le_mul_add_pred hc]
  omega

/-- C4 (amended): for `new_size` at most `designated_leafsize` the
computed level is `0`; beyond it, the sequential `num_optimal_levels`
is exactly the ceiling `⌈log_b (8·new_size / (5·k))⌉` — the least `L`
with `8·new_size ≤ 5·k·b^L` — with no reduction by one in the
single-subtree case. -/
theorem num_optimal_levels_spec (b k n : ℕ) (hb : 2 ≤ b) (hk : 8 ≤ k) :
    (n ≤ designated_leafsize k → num_optimal_levels b k n = 0) ∧
    (designated_leafsize k < n →
      8 * n ≤ 5 * k * b ^ num_optimal_levels b k n ∧
      ∀ m : ℕ, 8 * n ≤ 5 * k * b ^ m → num_optimal_levels b k n ≤ m) := by
  have hc : 0 < 5 * k := by omega
  have hb1 : 1 < b := hb
  constructor
  · intro h
    simp [num_optimal_levels, h]
  · intro h
    have hL : num_optimal_levels b k n = Nat.clog b ((8 * n + (5 * k - 1)) / (5 * k)) := by
      rw [num_optimal_levels, if_neg (not_le.mpr h), ceilLog_eq_clog]
    refine ⟨?_, ?_⟩
    · rw [hL]
      exact (ceilDiv_le_iff _ _ _ hc).mp (Nat.le_pow_clog hb1 _)
    · intro m hm
      rw [hL]
      exact (Nat.le_pow_iff_clog_le hb1).mp ((ceilDiv_le_iff _ _ _ hc).mpr hm)

/-- Witness for the amended C4 theorem at `b = k = 8`, `n = 6`. -/
theorem num_optimal_levels_spec_witness :
    (6 ≤ designated_leafsize 8 → num_optimal_levels 8 8 6 = 0) ∧
    (designated_leafsize 8 < 6 →
      8 * 6 ≤ 5 * 8 * 8 ^ num_optimal_levels 8 8 6 ∧
      ∀ m : ℕ, 8 * 6 ≤ 5 * 8 * 8 ^ m → num_optimal_levels 8 8 6 ≤ m) :=
  num_optimal_levels_spec 8 8 6 (by norm_num) (by norm_num)

/-- C4 counterexample: at `b = k = 8` and `new_size = 6` the claim's
formula (ceiling log reduced by one because `num_subtrees = 1`, as in
`spec_optimal_levels`) yields `0`, but the sequential
`num_optimal_levels` computes `1` — it never reduces. -/
theorem num_optimal_levels_cex :
    num_optimal_levels 8 8 6 = 1 ∧ spec_optimal_levels 8 8 6 = 0 ∧
      num_subtrees 6 (designated_subtreesize 8 8 1) = 1 := by decide

theorem dvd_gap (D a c : ℕ) (hD : 0 < D) (ha : D ∣ a) (hc : D ∣ c) (h : a < c) :
    a + D ≤ c := by
  obtain ⟨s, rfl⟩ := ha
  obtain ⟨t, rfl⟩ := hc
  have hst : s + 1 ≤ t := by
    by_contra hco
    push_neg at hco
    have : D * t ≤ D * s := Nat.mul_le_mul_left D (by omega)
    omega
  calc D * s + D = D * (s + 1) := by ring
    _ ≤ D * t := Nat.mul_le_mul_left D hst

theorem roundToMultiple (D num m : ℕ) (hD : 0 < D)
    (hm : m = if num % D = 0 then num
      else num - num % D + D * (if D - num % D ≤ num % D then 1 else 0)) :
    D ∣ m ∧ (∀ c : ℕ, D ∣ c → Nat.dist num m ≤ Nat.dist num c) ∧
      (∀ c : ℕ, D ∣ c → Nat.dist num c = Nat.dist num m → c ≤ m) := by
  have h1 := Nat.div_add_mod num D
  set A := D * (num / D) with hA
  have hdvdA : D ∣ A := ⟨num / D, hA⟩
  have hmodlt : num % D < D := Nat.mod_lt _ hD
  by_cases h0 : num % D = 0
  · have hm' : m = num := by rw [hm, if_pos h0]
    have hnumA : num = A := by omega
    refine ⟨by rw [hm', hnumA]; exact hdvdA, ?_, ?_⟩
    · intro c hc
      simp [hm', Nat.dist_self]
    · intro c hc hd
      simp [hm', Nat.dist_self, Nat.dist] at hd ⊢
      omega
  · by_cases hcl : D - num % D ≤ num % D
    · have hm' : m = A + D := by rw [hm, if_neg h0, if_pos hcl]; omega
      refine ⟨by rw [hm']; exact Dvd.dvd.add hdvdA dvd_rfl, ?_, ?_⟩
      · intro c hc
        rcases le_or_lt c A with h2 | h2
        · simp [Nat.dist, hm']; omega
        · have h3 := dvd_gap D A c hD hdvdA hc h2
          simp [Nat.dist, hm']; omega
      · intro c hc hd
        rcases le_or_lt c A with h2 | h2
        · rw [hm']; omega
        · have h3 := dvd_gap D A c hD hdvdA hc h2
          simp [Nat.dist, hm'] at hd
          omega
    · have hm' : m = A := by rw [hm, if_neg h0, if_neg hcl]; omega
      refine ⟨by rw [hm']; exact hdvdA, ?_, ?_⟩
      · intro c hc
        rcases le_or_lt c A with h2 | h2
        · simp [Nat.dist, hm']; omega
        · have h3 := dvd_gap D A c hD hdvdA hc h2
          simp [Nat.dist, hm']; omega
      · intro c hc hd
        rcases le_or_lt c A with h2 | h2
        · rw [hm']
          simp [Nat.dist, hm'] at hd
          omega
        · have h3 := dvd_gap D A c hD hdvdA hc h2
          simp [Nat.dist, hm'] at hd
          omega

/-- C7: for every level `ℓ ≥ 1`, `designated_subtreesize(ℓ)` is the
multiple of `designated_leafsize` closest to
`(maxweight(ℓ−1) + minweight(ℓ−1)) / 2`, with ties resolved upward
(every equally close multiple is at most it). -/
theorem designated_subtreesize_closest (b k level : ℕ) (hk : 8 ≤ k) (hl : 1 ≤ level) :
    designated_leafsize k ∣ designated_subtreesize b k level ∧
    (∀ c : ℕ, designated_leafsize k ∣ c →
      Nat.dist ((maxweight b k (level - 1) + minweight b k (level - 1)) / 2)
          (designated_subtreesize b k level) ≤
        Nat.dist ((maxweight b k (level - 1) + minweight b k (level - 1)) / 2) c) ∧
    (∀ c : ℕ, designated_leafsize k ∣ c →
      Nat.dist ((maxweight b k (level - 1) + minweight b k (level - 1)) / 2) c =
        Nat.dist ((maxweight b k (level - 1) + minweight b k (level - 1)) / 2)
          (designated_subtreesize b k level) →
      c ≤ designated_subtreesize b k level) := by
  have hD : 0 < designated_leafsize k := by
    simp only [designated_leafsize, leafslotmax, leafslotmin]
    omega
  exact roundToMultiple (designated_leafsize k)
    ((maxweight b k (level - 1) + minweight b k (level - 1)) / 2)
    (designated_subtreesize b k level) hD rfl

/-- Witness for C7 at `b = k = 8`, `level = 1`. -/
theorem designated_subtreesize_closest_witness :
    designated_leafsize 8 ∣ designated_subtreesize 8 8 1 ∧
    (∀ c : ℕ, designated_leafsize 8 ∣ c →
      Nat.dist ((maxweight 8 8 0 + minweight 8 8 0) / 2) (designated_subtreesize 8 8 1) ≤
        Nat.dist ((maxweight 8 8 0 + minweight 8 8 0) / 2) c) ∧
    (∀ c : ℕ, designated_leafsize 8 ∣ c →
      Nat.dist ((maxweight 8 8 0 + minweight 8 8 0) / 2) c =
        Nat.dist ((maxweight 8 8 0 + minweight 8 8 0) / 2) (designated_subtreesize 8 8 1) →
      c ≤ designated_subtreesize 8 8 1) :=
  designated_subtreesize_closest 8 8 1 (by norm_num) (by norm_num)

/-- C10: a positive key range always gets at least one subtree (the
final `num_subtrees += n > 0 && num_subtrees == 0` correction), the
clamped initial destination leaf index is always inside a nonempty
leaf array, and every `hasNextLeaf`-guarded advance stays inside. -/
theorem num_subtrees_ge_one (n s : ℕ) (hn : 0 < n) (hs : 0 < s) :
    1 ≤ num_subtrees n s ∧
    (∀ D rank len : ℕ, 1 ≤ len → (initial_leaf_number D rank len).1 < len) ∧
    (∀ ln count : ℕ, hasNextLeaf ln count = true → ln + 1 < count) := by
  refine ⟨?_, ?_, ?_⟩
  · have h2 : n % s < s := Nat.mod_lt _ hs
    rcases le_or_lt s n with hle | hlt
    · have h3 : 1 ≤ n / s := (Nat.one_le_div_iff hs).mpr hle
      simp only [num_subtrees]
      set base := n / s with hbase
      set rem := n % s with hrem
      split_ifs <;> omega
    · have h4 : n / s = 0 := Nat.div_eq_of_lt hlt
      have h5 : n % s = n := Nat.mod_eq_of_lt hlt
      simp only [num_subtrees, h4, h5]
      split_ifs <;> omega
  · intro D rank len hlen
    simp only [initial_leaf_number]
    split_ifs with h
    · simp
      omega
    · simpa using not_le.mp h
  · intro ln count h
    simpa [hasNextLeaf] using h

/-- Witness for C10 at `n = 1`, `s = 5`. -/
theorem num_subtrees_ge_one_witness :
    1 ≤ num_subtrees 1 5 ∧
    (∀ D rank len : ℕ, 1 ≤ len → (initial_leaf_number D rank len).1 < len) ∧
    (∀ ln count : ℕ, hasNextLeaf ln count = true → ln + 1 < count) :=
  num_subtrees_ge_one 1 5 (by norm_num) (by norm_num)

/-- C8: the midpoint `(lo + hi) >> 1` computed on 32-bit `int`
overflows for index pairs reachable with very large batches: at
`lo = 2^30`, `hi = 2^30 + 2` it wraps to a negative value instead of
the true midpoint `2^30 + 1`, so it is not overflow-safe and the
resulting index is outside `[lo, hi)`. -/
theorem find_lower_midpoint_overflows :
    findLowerMidInt (2 ^ 30) (2 ^ 30 + 2) = -1073741823 ∧
    ((2 ^ 30 : ℤ) + (2 ^ 30 + 2)) / 2 = 2 ^ 30 + 1 ∧
    findLowerMidInt (2 ^ 30) (2 ^ 30 + 2) < 2 ^ 30 := by decide

/-! ### The weight-delta prefix sum (C3) -/

theorem weightdeltaFrom_getD (ops : List Oper) :
    ∀ (v : ℤ) (j : ℕ), j ≤ ops.length →
      (weightdeltaFrom v ops).getD j 0 =
        v + ((ops.take j).map (fun op => opDelta op.ty)).sum := by
  induction ops with
  | nil =>
      intro v j hj
      have hj0 : j = 0 := by simpa using hj
      subst hj0
      simp [weightdeltaFrom]
  | cons op rest ih =>
      intro v j hj
      rcases j with _ | j
      · simp [weightdeltaFrom]
      · simp only [weightdeltaFrom, List.getD_cons_succ, List.take_succ_cons, List.map_cons,
          List.sum_cons]
        rw [ih (v + opDelta op.ty) j (by simpa using hj)]
        ring

theorem take_map_sum_succ (f : Oper → ℤ) (ops : List Oper) :
    ∀ m : ℕ, m < ops.length →
      ((ops.take (m + 1)).map f).sum =
        ((ops.take m).map f).sum + f (ops.getD m ⟨.insert, 0⟩) := by
  induction ops with
  | nil => intro m hm; simp at hm
  | cons op rest ih =>
      intro m hm
      rcases m with _ | m
      · simp
      · simp only [List.take_succ_cons, List.map_cons, List.sum_cons, List.getD_cons_succ]
        rw [ih m (by simpa using hm)]
        ring

theorem deltaSum_eq_count (L : List Oper) :
    (L.map (fun op => opDelta op.ty)).sum =
      (L.countP (fun op => op.ty == OperTy.insert) : ℤ) -
        (L.countP (fun op => op.ty == OperTy.delete) : ℤ) := by
  induction L with
  | nil => simp
  | cons op rest ih =>
      simp only [List.map_cons, List.sum_cons, List.countP_cons, ih]
      cases h : op.ty <;> simp [opDelta, h] <;> ring

theorem take_drop_map_sum (f : Oper → ℤ) (i j : ℕ) (hij : i ≤ j) (L : List Oper) :
    ((L.take j).map f).sum =
      ((L.take i).map f).sum + (((L.take j).drop i).map f).sum := by
  conv_lhs => rw [← List.take_append_drop i (L.take j)]
  rw [List.map_append, List.sum_append, List.take_take, min_eq_left hij]

theorem allSame_map_sum (L : List Oper) (t : OperTy) (h : ∀ op ∈ L, op.ty = t) :
    (L.map (fun op => opDelta op.ty)).sum = L.length * opDelta t := by
  induction L with
  | nil => simp
  | cons op rest ih =>
      simp only [List.map_cons, List.sum_cons, List.length_cons]
      rw [h op (by simp), ih (fun o ho => h o (by simp [ho]))]
      push_cast
      ring

/-- C3: the weight-delta array is the exclusive prefix sum of the
operation signs (`wd[0] = 0`, `wd[m+1] = wd[m] ± 1`); for a mixed
batch `getWeightDelta i j = wd[j] - wd[i]` equals the number of
inserts minus the number of deletes in `[i, j)`; and for a pure-insert
or pure-delete batch the closed form `(j - i) · sign` returns the same
value with no array consulted (an empty array is passed here). -/
theorem weightdelta_spec (ops : List Oper) (i j : ℕ) (hij : i ≤ j) (hj : j ≤ ops.length) :
    (weightdelta ops).getD 0 0 = 0 ∧
    (∀ m : ℕ, m < ops.length →
      (weightdelta ops).getD (m + 1) 0 =
        (weightdelta ops).getD m 0 + opDelta ((ops.getD m ⟨.insert, 0⟩).ty)) ∧
    getWeightDelta .mixed (weightdelta ops) i j =
      (((ops.take j).drop i).countP (fun op => op.ty == OperTy.insert) : ℤ) -
        (((ops.take j).drop i).countP (fun op => op.ty == OperTy.delete) : ℤ) ∧
    ((∀ op ∈ ops, op.ty = OperTy.insert) →
      getWeightDelta .insertsOnly [] i j = getWeightDelta .mixed (weightdelta ops) i j) ∧
    ((∀ op ∈ ops, op.ty = OperTy.delete) →
      getWeightDelta .deletesOnly [] i j = getWeightDelta .mixed (weightdelta ops) i j) := by
  have hii : i ≤ ops.length := le_trans hij hj
  have hmix : getWeightDelta .mixed (weightdelta ops) i j =
      (((ops.take j).drop i).map (fun op => opDelta op.ty)).sum := by
    simp only [getWeightDelta, weightdelta]
    rw [if_pos trivial, weightdeltaFrom_getD ops 0 j hj, weightdeltaFrom_getD ops 0 i hii,
      take_drop_map_sum _ i j hij]
    ring
  refine ⟨?_, ?_, ?_, ?_, ?_⟩
  · rw [weightdelta, weightdeltaFrom_getD ops 0 0 (by omega)]
    simp
  · intro m hm
    simp only [weightdelta]
    rw [weightdeltaFrom_getD ops 0 (m + 1) (by omega), weightdeltaFrom_getD ops 0 m (by omega),
      take_map_sum_succ _ ops m hm]
    ring
  · rw [hmix, deltaSum_eq_count]
  · intro hall
    have hsub : ∀ op ∈ (ops.take j).drop i, op.ty = OperTy.insert := fun op hop =>
      hall op (List.mem_of_mem_take (List.mem_of_mem_drop hop))
    rw [hmix, allSame_map_sum _ _ hsub]
    have hlen : ((ops.take j).drop i).length = j - i := by
      simp [List.length_drop, List.length_take]
      omega
    simp [getWeightDelta, batchVal, opDelta, hlen]
  · intro hall
    have hsub : ∀ op ∈ (ops.take j).drop i, op.ty = OperTy.delete := fun op hop =>
      hall op (List.mem_of_mem_take (List.mem_of_mem_drop hop))
    rw [hmix, allSame_map_sum _ _ hsub]
    have hlen : ((ops.take j).drop i).length = j - i := by
      simp [List.length_drop, List.length_take]
      omega
    simp [getWeightDelta, batchVal, opDelta, hlen]

/-- Witness for C3 on a concrete mixed batch with `i = 1`, `j = 3`. -/
theorem weightdelta_spec_witness :
    (weightdelta [⟨.insert, 1⟩, ⟨.delete, 2⟩, ⟨.insert, 3⟩]).getD 0 0 = 0 ∧
    (∀ m : ℕ, m < ([⟨.insert, 1⟩, ⟨.delete, 2⟩, ⟨.insert, 3⟩] : List Oper).length →
      (weightdelta [⟨.insert, 1⟩, ⟨.delete, 2⟩, ⟨.insert, 3⟩]).getD (m + 1) 0 =
        (weightdelta [⟨.insert, 1⟩, ⟨.delete, 2⟩, ⟨.insert, 3⟩]).getD m 0 +
          opDelta ((([⟨.insert, 1⟩, ⟨.delete, 2⟩, ⟨.insert, 3⟩] : List Oper).getD m
            ⟨.insert, 0⟩).ty)) ∧
    getWeightDelta .mixed (weightdelta [⟨.insert, 1⟩, ⟨.delete, 2⟩, ⟨.insert, 3⟩]) 1 3 =
      ((((([⟨.insert, 1⟩, ⟨.delete, 2⟩, ⟨.insert, 3⟩] : List Oper).take 3).drop 1).countP
          (fun op => op.ty == OperTy.insert) : ℤ)) -
        ((((([⟨.insert, 1⟩, ⟨.delete, 2⟩, ⟨.insert, 3⟩] : List Oper).take 3).drop 1).countP
          (fun op => op.ty == OperTy.delete) : ℤ)) ∧
    ((∀ op ∈ ([⟨.insert, 1⟩, ⟨.delete, 2⟩, ⟨.insert, 3⟩] : List Oper), op.ty = OperTy.insert) →
      getWeightDelta .insertsOnly [] 1 3 =
        getWeightDelta .mixed (weightdelta [⟨.insert, 1⟩, ⟨.delete, 2⟩, ⟨.insert, 3⟩]) 1 3) ∧
    ((∀ op ∈ ([⟨.insert, 1⟩, ⟨.delete, 2⟩, ⟨.insert, 3⟩] : List Oper), op.ty = OperTy.delete) →
      getWeightDelta .deletesOnly [] 1 3 =
        getWeightDelta .mixed (weightdelta [⟨.insert, 1⟩, ⟨.delete, 2⟩, ⟨.insert, 3⟩]) 1 3) :=
  weightdelta_spec [⟨.insert, 1⟩, ⟨.delete, 2⟩, ⟨.insert, 3⟩] 1 3 (by norm_num) (by norm_num)

/-! ### Leaf patch-in-place correctness (C6) -/

theorem mem_takeWhile_lt {l : List ℕ} {d x : ℕ} (h : x ∈ l.takeWhile (fun y => y < d)) :
    x < d := by
  have := List.mem_takeWhile_imp h
  simpa using this

theorem takeWhile_append_dropWhile_eq (l : List ℕ) (d : ℕ) :
    l.takeWhile (fun y => y < d) ++ l.dropWhile (fun y => y < d) = l :=
  List.takeWhile_append_dropWhile _ _

theorem mem_dropWhile_of_not {l : List ℕ} {d x : ℕ} (h : x ∈ l) (hx : ¬ x < d) :
    x ∈ l.dropWhile (fun y => y < d) := by
  rw [← takeWhile_append_dropWhile_eq l d] at h
  rcases List.mem_append.mp h with h1 | h1
  · exact absurd (mem_takeWhile_lt h1) hx
  · exact h1

theorem mem_of_mem_dropWhile {l : List ℕ} {p : ℕ → Bool} {x : ℕ} (h : x ∈ l.dropWhile p) :
    x ∈ l :=
  (List.dropWhile_sublist p).mem h

theorem sorted_dropWhile_mem {l : List ℕ} {d : ℕ} (hs : List.Sorted (· < ·) l) (hd : d ∈ l) :
    ∃ t, l.dropWhile (fun y => y < d) = d :: t := by
  induction l with
  | nil => cases hd
  | cons a l ih =>
      rw [List.dropWhile_cons]
      by_cases had : a < d
      · simp only [had, decide_true_eq_true, decide_eq_true_eq, if_pos]
        apply ih hs.of_cons
        rcases List.mem_cons.mp hd with rfl | h
        · exact absurd had (lt_irrefl d)
        · exact h
      · simp only [decide_eq_true_eq, had, if_neg, not_false_eq_true]
        rcases List.mem_cons.mp hd with rfl | h
        · exact ⟨l, rfl⟩
        · exact absurd (List.rel_of_sorted_cons hs d h) had

theorem sorted_dropWhile_ge {l : List ℕ} {d : ℕ} (hs : List.Sorted (· < ·) l) :
    ∀ x ∈ l.dropWhile (fun y => y < d), d ≤ x := by
  induction l with
  | nil => simp
  | cons a l ih =>
      rw [List.dropWhile_cons]
      by_cases had : a < d
      · simp only [decide_eq_true_eq, had, if_pos]
        exact ih hs.of_cons
      · simp only [decide_eq_true_eq, had, if_neg, not_false_eq_true]
        intro x hx
        rcases List.mem_cons.mp hx with rfl | h
        · omega
        · have := List.rel_of_sorted_cons hs x h
          omega

theorem mergeLeafGo_spec :
    ∀ (opsr : List Oper) (leafc : List ℕ),
      List.Sorted (· < ·) leafc →
      List.Pairwise (fun a c => a.data < c.data) opsr →
      (∀ op ∈ opsr, op.ty = OperTy.delete → op.data ∈ leafc) →
      (∀ op ∈ opsr, op.ty = OperTy.insert → op.data ∉ leafc) →
      List.Sorted (· < ·) (mergeLeafGo leafc opsr) ∧
      (∀ x : ℕ, x ∈ mergeLeafGo leafc opsr ↔
        ((x ∈ leafc ∧ (⟨OperTy.delete, x⟩ : Oper) ∉ opsr) ∨ (⟨OperTy.insert, x⟩ : Oper) ∈ opsr)) := by
  intro opsr
  induction opsr with
  | nil =>
      intro leafc hleaf hops hdel hins
      constructor
      · simpa [mergeLeafGo] using hleaf
      · intro x
        simp [mergeLeafGo]
  | cons op rest ih =>
      intro leafc hleaf hops hdel hins
      obtain ⟨ty, d⟩ := op
      have hops_head : ∀ o ∈ rest, d < o.data := by
        intro o ho
        exact (List.pairwise_cons.mp hops).1 o ho
      have hops_rest : List.Pairwise (fun a c => a.data < c.data) rest :=
        (List.pairwise_cons.mp hops).2
      cases ty
      · -- INSERT
        have hd : d ∉ leafc := hins ⟨.insert, d⟩ (List.mem_cons_self _ _) rfl
        have hrw : mergeLeafGo leafc (⟨OperTy.insert, d⟩ :: rest) =
            leafc.takeWhile (fun y => y < d) ++
              d :: mergeLeafGo (leafc.dropWhile (fun y => y < d)) rest := rfl
        set pre := leafc.takeWhile (fun y => y < d) with hpre
        set suf := leafc.dropWhile (fun y => y < d) with hsuf
        have hsplit : pre ++ suf = leafc := takeWhile_append_dropWhile_eq leafc d
        have hpre_lt : ∀ x ∈ pre, x < d := fun x hx => mem_takeWhile_lt hx
        have hsuf_mem : ∀ x ∈ suf, x ∈ leafc := fun x hx => mem_of_mem_dropWhile hx
        have hsuf_gt : ∀ x ∈ suf, d < x := by
          intro x hx
          have h1 := sorted_dropWhile_ge hleaf x hx
          have h2 : x ≠ d := fun h => hd (h ▸ hsuf_mem x hx)
          omega
        have hsuf_sorted : List.Sorted (· < ·) suf :=
          List.Pairwise.sublist (List.dropWhile_sublist _) hleaf
        have hpre_sorted : List.Sorted (· < ·) pre :=
          List.Pairwise.sublist (List.takeWhile_sublist _) hleaf
        have hdel' : ∀ o ∈ rest, o.ty = OperTy.delete → o.data ∈ suf := by
          intro o ho hto
          have h1 : o.data ∈ leafc := hdel o (List.mem_cons_of_mem _ ho) hto
          exact mem_dropWhile_of_not h1 (by have := hops_head o ho; omega)
        have hins' : ∀ o ∈ rest, o.ty = OperTy.insert → o.data ∉ suf := by
          intro o ho hto hmem
          exact hins o (List.mem_cons_of_mem _ ho) hto (hsuf_mem _ hmem)
        obtain ⟨ihs, ihm⟩ := ih suf hsuf_sorted hops_rest hdel' hins'
        have hM_gt : ∀ y ∈ mergeLeafGo suf rest, d < y := by
          intro y hy
          rcases (ihm y).mp hy with ⟨hy1, _⟩ | hy1
          · exact hsuf_gt y hy1
          · exact hops_head _ hy1
        constructor
        · rw [hrw]
          apply List.pairwise_append.mpr
          refine ⟨hpre_sorted, ?_, ?_⟩
          · exact List.pairwise_cons.mpr ⟨hM_gt, ihs⟩
          · intro x hx y hy
            have hxd := hpre_lt x hx
            rcases List.mem_cons.mp hy with rfl | hy1
            · exact hxd
            · have := hM_gt y hy1
              omega
        · intro x
          rw [hrw, List.mem_append, List.mem_cons]
          constructor
          · rintro (hx | rfl | hx)
            · have hxd := hpre_lt x hx
              left
              refine ⟨by rw [← hsplit]; exact List.mem_append_left _ hx, ?_⟩
              intro hc
              rcases List.mem_cons.mp hc with heq | hc1
              · simp at heq
              · have := hops_head _ hc1
                simp at this
                omega
            · right
              exact List.mem_cons_self _ _
            · rcases (ihm x).mp hx with ⟨hx1, hx2⟩ | hx1
              · left
                refine ⟨hsuf_mem x hx1, ?_⟩
                intro hc
                rcases List.mem_cons.mp hc with heq | hc1
                · simp at heq
                · exact hx2 hc1
              · right
                exact List.mem_cons_of_mem _ hx1
          · rintro (⟨hx1, hx2⟩ | hx1)
            · rw [← hsplit] at hx1
              rcases List.mem_append.mp hx1 with hx3 | hx3
              · exact Or.inl hx3
              · right; right
                exact (ihm x).mpr (Or.inl ⟨hx3, fun hc => hx2 (List.mem_cons_of_mem _ hc)⟩)
            · rcases List.mem_cons.mp hx1 with heq | hc1
              · injection heq with h1 h2
                exact Or.inr (Or.inl h2)
              · right; right
                exact (ihm x).mpr (Or.inr hc1)
      · -- DELETE
        have hd : d ∈ leafc := hdel ⟨.delete, d⟩ (List.mem_cons_self _ _) rfl
        obtain ⟨t, ht⟩ := sorted_dropWhile_mem hleaf hd
        have hrw : mergeLeafGo leafc (⟨OperTy.delete, d⟩ :: rest) =
            leafc.takeWhile (fun y => y < d) ++ mergeLeafGo t rest := by
          show leafc.takeWhile (fun y => y < d) ++
              mergeLeafGo ((leafc.dropWhile (fun y => y < d)).drop 1) rest = _
          rw [ht]
          rfl
        set pre := leafc.takeWhile (fun y => y < d) with hpre
        have hsplit : pre ++ d :: t = leafc := by
          rw [← ht]
          exact takeWhile_append_dropWhile_eq leafc d
        have hpre_lt : ∀ x ∈ pre, x < d := fun x hx => mem_takeWhile_lt hx
        have hdt_sorted : List.Sorted (· < ·) (d :: t) := by
          rw [← ht]
          exact List.Pairwise.sublist (List.dropWhile_sublist _) hleaf
        have ht_sorted : List.Sorted (· < ·) t := hdt_sorted.of_cons
        have ht_gt : ∀ x ∈ t, d < x := fun x hx => List.rel_of_sorted_cons hdt_sorted x hx
        have ht_mem : ∀ x ∈ t, x ∈ leafc := by
          intro x hx
          rw [← hsplit]
          exact List.mem_append_right _ (List.mem_cons_of_mem _ hx)
        have hpre_sorted : List.Sorted (· < ·) pre :=
          List.Pairwise.sublist (List.takeWhile_sublist _) hleaf
        have hdel' : ∀ o ∈ rest, o.ty = OperTy.delete → o.data ∈ t := by
          intro o ho hto
          have h1 : o.data ∈ leafc := hdel o (List.mem_cons_of_mem _ ho) hto
          have h2 := hops_head o ho
          have h3 : o.data ∈ leafc.dropWhile (fun y => y < d) :=
            mem_dropWhile_of_not h1 (by omega)
          rw [ht] at h3
          rcases List.mem_cons.mp h3 with heq | h4
          · omega
          · exact h4
        have hins' : ∀ o ∈ rest, o.ty = OperTy.insert → o.data ∉ t := by
          intro o ho hto hmem
          exact hins o (List.mem_cons_of_mem _ ho) hto (ht_mem _ hmem)
        obtain ⟨ihs, ihm⟩ := ih t ht_sorted hops_rest hdel' hins'
        have hM_gt : ∀ y ∈ mergeLeafGo t rest, d < y := by
          intro y hy
          rcases (ihm y).mp hy with ⟨hy1, _⟩ | hy1
          · exact ht_gt y hy1
          · exact hops_head _ hy1
        constructor
        · rw [hrw]
          apply List.pairwise_append.mpr
          refine ⟨hpre_sorted, ihs, ?_⟩
          intro x hx y hy
          have := hpre_lt x hx
          have := hM_gt y hy
          omega
        · intro x
          rw [hrw, List.mem_append]
          constructor
          · rintro (hx | hx)
            · have hxd := hpre_lt x hx
              left
              refine ⟨by rw [← hsplit]; exact List.mem_append_left _ hx, ?_⟩
              intro hc
              rcases List.mem_cons.mp hc with heq | hc1
              · injection heq with h1 h2
                omega
              · have := hops_head _ hc1
                simp at this
                omega
            · rcases (ihm x).mp hx with ⟨hx1, hx2⟩ | hx1
              · left
                have hxd := ht_gt x hx1
                refine ⟨ht_mem x hx1, ?_⟩
                intro hc
                rcases List.mem_cons.mp hc with heq | hc1
                · injection heq with h1 h2
                  omega
                · exact hx2 hc1
              · right
                exact List.mem_cons_of_mem _ hx1
          · rintro (⟨hx1, hx2⟩ | hx1)
            · have hxd : x ≠ d := by
                intro h
                exact hx2 (h ▸ List.mem_cons_self _ _)
              rw [← hsplit] at hx1
              rcases List.mem_append.mp hx1 with hx3 | hx3
              · exact Or.inl hx3
              · rcases List.mem_cons.mp hx3 with rfl | hx4
                · exact absurd rfl hxd
                · exact Or.inr ((ihm x).mpr
                    (Or.inl ⟨hx4, fun hc => hx2 (List.mem_cons_of_mem _ hc)⟩))
            · rcases List.mem_cons.mp hx1 with heq | hc1
              · simp at heq
              · exact Or.inr ((ihm x).mpr (Or.inr hc1))

/-- C6: patching a leaf in place through the spare leaf produces
exactly the old leaf's sorted keys minus the batch range's DELETE
targets plus its INSERT keys, in strictly sorted order; the slot then
holds the merged result while the old leaf becomes the new spare
(whose previous contents are irrelevant: the merge output overwrites
it) and the router is the merged leaf's last key. -/
theorem update_leaf_in_current_tree_spec (spare leafc : List ℕ) (opsr : List Oper)
    (hleaf : List.Sorted (· < ·) leafc)
    (hops : List.Pairwise (fun a c => a.data < c.data) opsr)
    (hdel : ∀ op ∈ opsr, op.ty = OperTy.delete → op.data ∈ leafc)
    (hins : ∀ op ∈ opsr, op.ty = OperTy.insert → op.data ∉ leafc) :
    List.Sorted (· < ·) (update_leaf_in_current_tree spare leafc opsr).1 ∧
    (∀ x : ℕ, x ∈ (update_leaf_in_current_tree spare leafc opsr).1 ↔
      ((x ∈ leafc ∧ (⟨OperTy.delete, x⟩ : Oper) ∉ opsr) ∨
        (⟨OperTy.insert, x⟩ : Oper) ∈ opsr)) ∧
    (update_leaf_in_current_tree spare leafc opsr).2.1 = leafc ∧
    (update_leaf_in_current_tree spare leafc opsr).2.2 =
      (update_leaf_in_current_tree spare leafc opsr).1.getLastD 0 := by
  obtain ⟨h1, h2⟩ := mergeLeafGo_spec opsr leafc hleaf hops hdel hins
  exact ⟨h1, h2, rfl, rfl⟩

/-- Witness for C6: the leaf `[2, 4, 6]` patched with
`DELETE 4, INSERT 5`. -/
theorem update_leaf_in_current_tree_spec_witness :
    List.Sorted (· < ·)
      (update_leaf_in_current_tree [] [2, 4, 6] [⟨.delete, 4⟩, ⟨.insert, 5⟩]).1 ∧
    (∀ x : ℕ,
      x ∈ (update_leaf_in_current_tree [] [2, 4, 6] [⟨.delete, 4⟩, ⟨.insert, 5⟩]).1 ↔
        ((x ∈ [2, 4, 6] ∧
            (⟨OperTy.delete, x⟩ : Oper) ∉ ([⟨.delete, 4⟩, ⟨.insert, 5⟩] : List Oper)) ∨
          (⟨OperTy.insert, x⟩ : Oper) ∈ ([⟨.delete, 4⟩, ⟨.insert, 5⟩] : List Oper))) ∧
    (update_leaf_in_current_tree [] [2, 4, 6] [⟨.delete, 4⟩, ⟨.insert, 5⟩]).2.1 = [2, 4, 6] ∧
    (update_leaf_in_current_tree [] [2, 4, 6] [⟨.delete, 4⟩, ⟨.insert, 5⟩]).2.2 =
      (update_leaf_in_current_tree [] [2, 4, 6] [⟨.delete, 4⟩, ⟨.insert, 5⟩]).1.getLastD 0 :=
  update_leaf_in_current_tree_spec [] [2, 4, 6] [⟨.delete, 4⟩, ⟨.insert, 5⟩]
    (by decide) (by decide) (by decide) (by decide)

/-! ### The top-level bulk update (C5, C9, C2) -/

/-- C5: for a batch whose resulting tree is non-empty, `apply_updates`
takes the root-rebuild path (fresh leaf array plus full
reconstruction) exactly when `target_level < root.level` and the size
is below `minweight(root.level)`, or the size exceeds
`maxweight(root.level)` — where the size consulted is `size()` after
`stats.itemcount` has already been set to the new size. -/
theorem apply_updates_rebuild_iff (b k fuel : ℕ) (st : TreeState) (ops : List Oper)
    (bt : BatchTy) (newSize : ℕ)
    (hsz : (newSize : ℤ) =
      (st.itemcount : ℤ) +
        getWeightDelta bt (if bt = .mixed then weightdelta ops else []) 0 ops.length)
    (hne : newSize ≠ 0) :
    (apply_updates b k fuel st ops bt).2 = true ↔
      ((num_optimal_levels b k newSize < nodeLevel (st.root.getD (.lf [])) ∧
          newSize < minweight b k (nodeLevel (st.root.getD (.lf [])))) ∨
        maxweight b k (nodeLevel (st.root.getD (.lf []))) < newSize) := by
  have h1 : ((st.itemcount : ℤ) +
      getWeightDelta bt (if bt = .mixed then weightdelta ops else []) 0 ops.length).toNat =
      newSize := by omega
  simp only [apply_updates, size]
  rw [h1, if_neg hne]
  by_cases h : ((num_optimal_levels b k newSize < nodeLevel (st.root.getD (.lf [])) ∧
      newSize < minweight b k (nodeLevel (st.root.getD (.lf [])))) ∨
    maxweight b k (nodeLevel (st.root.getD (.lf []))) < newSize)
  · rw [if_pos h]
    exact iff_of_true rfl h
  · rw [if_neg h]
    exact iff_of_false (by simp) h

/-- Witness for C5: one insert into the empty tree (new size 1, no
rebuild since `1 ≤ maxweight(0)`). -/
theorem apply_updates_rebuild_iff_witness :
    (apply_updates 8 8 4 ⟨none, 0⟩ [⟨.insert, 5⟩] .insertsOnly).2 = true ↔
      ((num_optimal_levels 8 8 1 < nodeLevel ((none : Option BNode).getD (.lf [])) ∧
          1 < minweight 8 8 (nodeLevel ((none : Option BNode).getD (.lf [])))) ∨
        maxweight 8 8 (nodeLevel ((none : Option BNode).getD (.lf []))) < 1) :=
  apply_updates_rebuild_iff 8 8 4 ⟨none, 0⟩ [⟨.insert, 5⟩] .insertsOnly 1
    (by decide) (by decide)

/-- C9: a direct `clear()` frees the nodes and nulls the root but
leaves `stats.itemcount` untouched, so on a non-empty tree `size()`
still reports the old count and `empty()` is false; `apply_updates`
instead writes the new count before clearing, so emptying the tree
through it leaves `size() = 0`. -/
theorem clear_preserves_itemcount (st : TreeState) (h : size st ≠ 0) :
    (clear st).root = none ∧ size (clear st) = size st ∧ empty (clear st) = false ∧
    (∀ b k fuel : ℕ, ∀ ops : List Oper, ∀ bt : BatchTy,
      ((st.itemcount : ℤ) +
          getWeightDelta bt (if bt = .mixed then weightdelta ops else []) 0 ops.length).toNat =
        0 →
      size (apply_updates b k fuel st ops bt).1 = 0 ∧
        (apply_updates b k fuel st ops bt).1.root = none) := by
  refine ⟨rfl, rfl, ?_, ?_⟩
  · simp only [empty, size, clear]
    exact beq_eq_false_iff_ne.mpr h
  · intro b k fuel ops bt h0
    simp only [apply_updates]
    rw [h0]
    simp [clear, size]

/-- Witness for C9: a one-key tree, then a batch deleting that key. -/
theorem clear_preserves_itemcount_witness :
    (clear ⟨some (.lf [3]), 1⟩).root = none ∧
    size (clear ⟨some (.lf [3]), 1⟩) = size ⟨some (.lf [3]), 1⟩ ∧
    empty (clear ⟨some (.lf [3]), 1⟩) = false ∧
    (∀ b k fuel : ℕ, ∀ ops : List Oper, ∀ bt : BatchTy,
      (((⟨some (.lf [3]), 1⟩ : TreeState).itemcount : ℤ) +
          getWeightDelta bt (if bt = .mixed then weightdelta ops else []) 0 ops.length).toNat =
        0 →
      size (apply_updates b k fuel ⟨some (.lf [3]), 1⟩ ops bt).1 = 0 ∧
        (apply_updates b k fuel ⟨some (.lf [3]), 1⟩ ops bt).1.root = none) :=
  clear_preserves_itemcount ⟨some (.lf [3]), 1⟩ (by decide)

/-- C2: a concrete refutation run with `k = b = 8`.  Bulk-inserting
1..65 builds a level-2 tree; deleting 62..65 then leaves the second
level-1 node with a last leaf holding the single key 61, i.e. a
non-root node of weight `1 < minweight(0) = 2`, although both batches
satisfy all preconditions.  The tree still holds all 61 keys, but the
specification's weight invariant — which `verify_node` also asserts —
fails. -/
theorem apply_updates_weight_invariant_fails :
    countKeys 8 (c2run.root.getD (.lf [])) = 61 ∧
    weightBoundsOK 8 8 8 true (c2run.root.getD (.lf [])) = false := by decide

/-! ### Pareto minima: facts about the running prefix minimum -/

theorem firstMinSnd_cons_none {rest : List PKey} (k : PKey) (h : firstMinSnd rest = none) :
    firstMinSnd (k :: rest) = some k := by
  rw [firstMinSnd, h]

theorem firstMinSnd_cons_some {rest : List PKey} {m : PKey} (k : PKey)
    (h : firstMinSnd rest = some m) :
    firstMinSnd (k :: rest) =
      if k.second_weight ≤ m.second_weight then some k else some m := by
  rw [firstMinSnd, h]

theorem fms_none {L : List PKey} (h : firstMinSnd L = none) : L = [] := by
  cases L with
  | nil => rfl
  | cons k rest =>
      rcases hr : firstMinSnd rest with _ | m'
      · rw [firstMinSnd_cons_none k hr] at h
        cases h
      · rw [firstMinSnd_cons_some k hr] at h
        by_cases hk : k.second_weight ≤ m'.second_weight
        · rw [if_pos hk] at h
          cases h
        · rw [if_neg hk] at h
          cases h

theorem fms_some {L : List PKey} (h : L ≠ []) : ∃ m, firstMinSnd L = some m := by
  rcases hr : firstMinSnd L with _ | m
  · exact absurd (fms_none hr) h
  · exact ⟨m, rfl⟩

theorem fms_mem {L : List PKey} {m : PKey} (h : firstMinSnd L = some m) : m ∈ L := by
  induction L generalizing m with
  | nil => cases h
  | cons k rest ih =>
      rcases hr : firstMinSnd rest with _ | m'
      · rw [firstMinSnd_cons_none k hr] at h
        simp at h
        simp [h]
      · rw [firstMinSnd_cons_some k hr] at h
        by_cases hk : k.second_weight ≤ m'.second_weight
        · rw [if_pos hk] at h
          simp at h
          simp [h]
        · rw [if_neg hk] at h
          simp at h
          exact List.mem_cons_of_mem _ (ih (h ▸ hr))

theorem fms_min {L : List PKey} {m : PKey} (h : firstMinSnd L = some m) :
    ∀ j ∈ L, m.second_weight ≤ j.second_weight := by
  induction L generalizing m with
  | nil => cases h
  | cons k rest ih =>
      intro j hj
      rcases hr : firstMinSnd rest with _ | m'
      · have hrest : rest = [] := fms_none hr
        subst hrest
        rw [firstMinSnd_cons_none k hr] at h
        simp at h
        subst h
        simp at hj
        subst hj
        omega
      · rw [firstMinSnd_cons_some k hr] at h
        rcases List.mem_cons.mp hj with rfl | hj1
        · by_cases hk : j.second_weight ≤ m'.second_weight
          · rw [if_pos hk] at h
            simp at h
            subst h
            omega
          · rw [if_neg hk] at h
            simp at h
            subst h
            omega
        · have hm' := ih hr j hj1
          by_cases hk : k.second_weight ≤ m'.second_weight
          · rw [if_pos hk] at h
            simp at h
            subst h
            omega
          · rw [if_neg hk] at h
            simp at h
            subst h
            omega

/-- In a lexicographically sorted list, the first key achieving the
minimal second weight also has the least first weight among the
achievers. -/
theorem fms_first_fw {L : List PKey} {m : PKey} (hsort : List.Sorted keyLt L)
    (h : firstMinSnd L = some m) :
    ∀ j ∈ L, j.second_weight = m.second_weight → m.first_weight ≤ j.first_weight := by
  induction L generalizing m with
  | nil => cases h
  | cons k rest ih =>
      intro j hj hjsw
      rcases hr : firstMinSnd rest with _ | m'
      · have hrest : rest = [] := fms_none hr
        subst hrest
        rw [firstMinSnd_cons_none k hr] at h
        simp at h
        subst h
        simp at hj
        subst hj
        omega
      · rw [firstMinSnd_cons_some k hr] at h
        by_cases hk : k.second_weight ≤ m'.second_weight
        · rw [if_pos hk] at h
          simp at h
          subst h
          rcases List.mem_cons.mp hj with rfl | hj1
          · omega
          · have := List.rel_of_sorted_cons hsort j hj1
            rw [keyLt] at this
            omega
        · rw [if_neg hk] at h
          simp at h
          subst h
          rcases List.mem_cons.mp hj with rfl | hj1
          · omega
          · exact ih hsort.of_cons hr j hj1 hjsw

theorem sweepState_append (p : MinKey) (A B : List PKey) :
    sweepState p (A ++ B) = sweepState (sweepState p A) B := by
  simp [sweepState, List.foldl_append]

theorem fpmLeaf_append (A B : List PKey) (p : MinKey) :
    fpmLeaf (A ++ B) p = fpmLeaf A p ++ fpmLeaf B (sweepState p A) := by
  induction A generalizing p with
  | nil => simp [fpmLeaf, sweepState]
  | cons k A' ih =>
      rw [List.cons_append, fpmLeaf, fpmLeaf]
      have hstate : sweepState p (k :: A') = sweepState (stepMin p k) A' := rfl
      by_cases hc : minCond (minKeyOf k) p
      · rw [if_pos hc, if_pos hc, ih, hstate]
        have hst : stepMin p k = minKeyOf k := by rw [stepMin, if_pos hc]
        rw [hst]
        simp
      · rw [if_neg hc, if_neg hc, ih, hstate]
        have hst : stepMin p k = p := by rw [stepMin, if_neg hc]
        rw [hst]

theorem fpmLeaf_nil_of_no_cond {L : List PKey} {p : MinKey}
    (h : ∀ key ∈ L, ¬ minCond (minKeyOf key) p) :
    fpmLeaf L p = [] ∧ sweepState p L = p := by
  induction L with
  | nil => exact ⟨rfl, rfl⟩
  | cons k rest ih =>
      have hk := h k (List.mem_cons_self _ _)
      have hstep : stepMin p k = p := by rw [stepMin, if_neg hk]
      obtain ⟨h1, h2⟩ := ih (fun key hkey => h key (List.mem_cons_of_mem _ hkey))
      refine ⟨?_, ?_⟩
      · rw [fpmLeaf, if_neg hk, h1]
      · show sweepState (stepMin p k) rest = p
        rw [hstep, h2]

theorem sweepState_stable {L : List PKey} {p : MinKey}
    (h : ∀ key ∈ L, p.second_weight ≤ key.second_weight) :
    sweepState p L = p := by
  induction L with
  | nil => rfl
  | cons k rest ih =>
      have hk := h k (List.mem_cons_self _ _)
      have hstep : stepMin p k = p := by
        rw [stepMin]
        by_cases hc : minCond (minKeyOf k) p
        · rw [if_pos hc]
          rcases hc with hlt | ⟨hfw, hsw⟩
          · simp [minKeyOf] at hlt
            omega
          · simp [minKeyOf] at hfw hsw
            cases p
            simp_all [minKeyOf]
        · rw [if_neg hc]
      show sweepState (stepMin p k) rest = p
      rw [hstep]
      exact ih (fun key hkey => h key (List.mem_cons_of_mem _ hkey))

theorem state_from_head : ∀ (P : List PKey) (h0 m : PKey),
    firstMinSnd (h0 :: P) = some m → sweepState (minKeyOf h0) P = minKeyOf m := by
  intro P
  induction P with
  | nil =>
      intro h0 m hm
      rw [firstMinSnd_cons_none h0 (by rfl)] at hm
      simp at hm
      subst hm
      rfl
  | cons k P2 ih =>
      intro h0 m hm
      obtain ⟨m2, hm2⟩ := fms_some (L := k :: P2) (by simp)
      rw [firstMinSnd_cons_some h0 hm2] at hm
      show sweepState (stepMin (minKeyOf h0) k) P2 = minKeyOf m
      by_cases hck : minCond (minKeyOf k) (minKeyOf h0)
      · have hstep : stepMin (minKeyOf h0) k = minKeyOf k := by rw [stepMin, if_pos hck]
        rw [hstep, ih k m2 hm2]
        rcases hck with hlt | ⟨hfw, hsw⟩
        · -- k.sw < h0.sw, so m2.sw ≤ k.sw < h0.sw and the if picks m2
          simp only [minKeyOf] at hlt
          have h1 := fms_min hm2 k (List.mem_cons_self _ _)
          rw [if_neg (by omega)] at hm
          simp at hm
          subst hm
          rfl
        · -- tie: the pairs of k and h0 agree
          simp only [minKeyOf] at hfw hsw
          have h1 := fms_min hm2 k (List.mem_cons_self _ _)
          by_cases hif : h0.second_weight ≤ m2.second_weight
          · rw [if_pos hif] at hm
            simp at hm
            subst hm
            -- m2 must be k itself (anything strictly earlier-min would beat h0.sw)
            have hm2k : m2 = k := by
              rcases hp2 : firstMinSnd P2 with _ | w
              · rw [firstMinSnd_cons_none k hp2] at hm2
                simp at hm2
                exact hm2.symm
              · rw [firstMinSnd_cons_some k hp2] at hm2
                by_cases hkw : k.second_weight ≤ w.second_weight
                · rw [if_pos hkw] at hm2
                  simp at hm2
                  exact hm2.symm
                · rw [if_neg hkw] at hm2
                  simp at hm2
                  subst hm2
                  exfalso
                  omega
            subst hm2k
            simp [minKeyOf]
            omega
          · rw [if_neg hif] at hm
            simp at hm
            subst hm
            rfl
      · have hstep : stepMin (minKeyOf h0) k = minKeyOf h0 := by rw [stepMin, if_neg hck]
        rw [hstep]
        obtain ⟨m0, hm0⟩ := fms_some (L := h0 :: P2) (by simp)
        rw [ih h0 m0 hm0]
        -- show m0 = m
        simp only [minCond, minKeyOf] at hck
        push_neg at hck
        rcases hp2 : firstMinSnd P2 with _ | w
        · have hP2 : P2 = [] := fms_none hp2
          subst hP2
          rw [firstMinSnd_cons_none h0 hp2] at hm0
          rw [firstMinSnd_cons_none k hp2] at hm2
          simp at hm0 hm2
          subst hm0
          subst hm2
          rw [if_pos (by omega)] at hm
          simp at hm
          subst hm
          rfl
        · rw [firstMinSnd_cons_some h0 hp2] at hm0
          rw [firstMinSnd_cons_some k hp2] at hm2
          by_cases hif : h0.second_weight ≤ w.second_weight
          · rw [if_pos hif] at hm0
            simp at hm0
            subst hm0
            have hm2w : m2.second_weight = min k.second_weight w.second_weight := by
              by_cases hkw : k.second_weight ≤ w.second_weight
              · rw [if_pos hkw] at hm2
                simp at hm2
                subst hm2
                omega
              · rw [if_neg hkw] at hm2
                simp at hm2
                subst hm2
                omega
            rw [if_pos (by omega)] at hm
            simp at hm
            subst hm
            rfl
          · rw [if_neg hif] at hm0
            simp at hm0
            subst hm0
            -- w.sw < h0.sw ≤ k.sw, so m2 = w and the outer if picks m2
            have hwk : ¬ k.second_weight ≤ w.second_weight := by omega
            rw [if_neg hwk] at hm2
            simp at hm2
            subst hm2
            rw [if_neg (by omega)] at hm
            simp at hm
            subst hm
            rfl

theorem state_sent_char (P : List PKey)
    (hsw : ∀ j ∈ P, j.second_weight < sentinelSecond) :
    (P = [] ∧ sweepState sentinelMin P = sentinelMin) ∨
    (∃ m, firstMinSnd P = some m ∧ sweepState sentinelMin P = minKeyOf m) := by
  cases P with
  | nil => exact Or.inl ⟨rfl, rfl⟩
  | cons h0 P2 =>
      right
      obtain ⟨m, hm⟩ := fms_some (L := h0 :: P2) (by simp)
      refine ⟨m, hm, ?_⟩
      show sweepState (stepMin sentinelMin h0) P2 = minKeyOf m
      have hstep : stepMin sentinelMin h0 = minKeyOf h0 := by
        rw [stepMin, if_pos]
        exact Or.inl (hsw h0 (List.mem_cons_self _ _))
      rw [hstep]
      exact state_from_head P2 h0 m hm

theorem state_reaches : ∀ (L : List PKey) (p : MinKey) (m : PKey),
    firstMinSnd L = some m → minCond (minKeyOf m) p → sweepState p L = minKeyOf m := by
  intro L
  induction L with
  | nil => intro p m hm; cases hm
  | cons k rest ih =>
      intro p m hm hc
      show sweepState (stepMin p k) rest = minKeyOf m
      rcases hr : firstMinSnd rest with _ | m'
      · have hrest := fms_none hr
        subst hrest
        rw [firstMinSnd_cons_none k hr] at hm
        simp at hm
        subst hm
        show stepMin p k = minKeyOf k
        rw [stepMin, if_pos hc]
      · rw [firstMinSnd_cons_some k hr] at hm
        by_cases hk : k.second_weight ≤ m'.second_weight
        · rw [if_pos hk] at hm
          simp at hm
          subst hm
          have hstep : stepMin p k = minKeyOf k := by rw [stepMin, if_pos hc]
          rw [hstep]
          apply sweepState_stable
          intro j hj
          have h2 := fms_min hr j hj
          simp [minKeyOf]
          omega
        · rw [if_neg hk] at hm
          simp at hm
          subst hm
          by_cases hck : minCond (minKeyOf k) p
          · have hstep : stepMin p k = minKeyOf k := by rw [stepMin, if_pos hck]
            rw [hstep]
            apply ih _ _ hr
            left
            simp [minKeyOf]
            omega
          · have hstep : stepMin p k = p := by rw [stepMin, if_neg hck]
            rw [hstep]
            exact ih _ _ hr hc

theorem PfxOK_mono {p : MinKey} {L M : List PKey} (hsub : ∀ x ∈ M, x ∈ L)
    (h : PfxOK p L) : PfxOK p M := by
  rcases h with h | ⟨k0, hk0, hlt⟩
  · exact Or.inl fun key hkey => h key (hsub key hkey)
  · exact Or.inr ⟨k0, hk0, fun key hkey => hlt key (hsub key hkey)⟩

theorem skip_ok {L : List PKey} {p : MinKey} {m : PKey}
    (hsort : List.Sorted keyLt L) (hpfx : PfxOK p L)
    (hm : firstMinSnd L = some m) (hnc : ¬ minCond (minKeyOf m) p) :
    fpmLeaf L p = [] ∧ sweepState p L = p := by
  apply fpmLeaf_nil_of_no_cond
  intro key hkey hc
  have hmin := fms_min hm key hkey
  simp only [minCond, minKeyOf] at hnc hc
  push_neg at hnc
  rcases hc with hlt | ⟨hfw, hsw⟩
  · omega
  · have hmsw : m.second_weight = p.second_weight := by omega
    have hmfw : m.first_weight ≠ p.first_weight := fun h => (hnc.2 h).elim (by omega)
    rcases hpfx with hall | ⟨k0, hk0, hlt0⟩
    · have := hall key hkey
      omega
    · subst hk0
      have hltm := hlt0 m (fms_mem hm)
      rw [keyLt] at hltm
      have hkeyfw := fms_first_fw hsort hm key hkey (by simp [minKeyOf] at *; omega)
      simp [minKeyOf] at *
      omega

theorem sizeOf_lt_of_mem_slots : ∀ (slots : List (MinKey × PTree)) (s : MinKey × PTree),
    s ∈ slots → sizeOf s.2 < sizeOf (PTree.inn slots) := by
  intro slots
  induction slots with
  | nil => intro s hs; cases hs
  | cons a rest ih =>
      intro s hs
      rcases List.mem_cons.mp hs with rfl | hs1
      · obtain ⟨m, c⟩ := s
        simp
        omega
      · have h1 := ih s hs1
        simp at h1 ⊢
        omega

theorem flattenT_lf (keys : List PKey) : flattenT (.lf keys) = keys := by
  simp [flattenT]

theorem flattenT_inn (slots : List (MinKey × PTree)) :
    flattenT (.inn slots) = flattenS slots := by
  simp [flattenT]

theorem flattenS_nil : flattenS [] = [] := by
  simp [flattenS]

theorem flattenS_cons (m : MinKey) (c : PTree) (rest : List (MinKey × PTree)) :
    flattenS ((m, c) :: rest) = flattenT c ++ flattenS rest := by
  simp [flattenS]

theorem fpm_lf (keys : List PKey) (p : MinKey) :
    find_pareto_minima (.lf keys) p = fpmLeaf keys p := by
  simp [find_pareto_minima]

theorem fpm_inn (slots : List (MinKey × PTree)) (p : MinKey) :
    find_pareto_minima (.inn slots) p = fpmInner slots p := by
  simp [find_pareto_minima]

theorem fpmInner_nil (p : MinKey) : fpmInner [] p = [] := by
  simp [fpmInner]

theorem fpmInner_cons (m : MinKey) (c : PTree) (rest : List (MinKey × PTree)) (p : MinKey) :
    fpmInner ((m, c) :: rest) p =
      if minCond m p then find_pareto_minima c p ++ fpmInner rest m else fpmInner rest p := by
  simp [fpmInner]

/-- The traversal of `find_pareto_minima` over a tree whose stored
minima are correct and whose keys are sorted agrees with the plain
left-to-right sweep of all its keys: pruned subtrees contribute
nothing, and descending with the stored minimum as the new prefix
matches the sweep state. -/
theorem fpm_eq_fpmLeaf : ∀ (n : ℕ) (t : PTree) (p : MinKey), sizeOf t ≤ n →
    MinimaOK t → List.Sorted keyLt (flattenT t) → PfxOK p (flattenT t) →
    find_pareto_minima t p = fpmLeaf (flattenT t) p := by
  intro n
  induction n using Nat.strong_induction_on with
  | _ n ih =>
      intro t p hsz hok hsort hpfx
      cases t with
      | lf keys => rw [fpm_lf, flattenT_lf]
      | inn slots =>
          have hok' : ∀ s ∈ slots, MinimaOK s.2 := by
            cases hok with
            | inn slots h1 h2 => exact h1
          have hmin' : ∀ s ∈ slots,
              ∃ key, firstMinSnd (flattenT s.2) = some key ∧ s.1 = minKeyOf key := by
            cases hok with
            | inn slots h1 h2 => exact h2
          have hchild : ∀ s ∈ slots, ∀ q, List.Sorted keyLt (flattenT s.2) →
              PfxOK q (flattenT s.2) → find_pareto_minima s.2 q = fpmLeaf (flattenT s.2) q := by
            intro s hs q hsort2 hq
            have hlt : sizeOf s.2 < sizeOf (PTree.inn slots) := sizeOf_lt_of_mem_slots slots s hs
            exact ih (sizeOf s.2) (by omega) s.2 q le_rfl (hok' s hs) hsort2 hq
          rw [fpm_inn, flattenT_inn]
          rw [flattenT_inn] at hsort hpfx
          suffices hgen : ∀ (sl : List (MinKey × PTree)),
              (∀ s ∈ sl, ∃ key, firstMinSnd (flattenT s.2) = some key ∧ s.1 = minKeyOf key) →
              (∀ s ∈ sl, ∀ q, List.Sorted keyLt (flattenT s.2) → PfxOK q (flattenT s.2) →
                find_pareto_minima s.2 q = fpmLeaf (flattenT s.2) q) →
              ∀ p2 : MinKey, List.Sorted keyLt (flattenS sl) → PfxOK p2 (flattenS sl) →
              fpmInner sl p2 = fpmLeaf (flattenS sl) p2 by
            exact hgen slots hmin' hchild p hsort hpfx
          intro sl
          induction sl with
          | nil =>
              intro _ _ p2 _ _
              rw [fpmInner_nil, flattenS_nil]
              rfl
          | cons s rest ihs =>
              intro hmin2 hchild2 p2 hsort2 hpfx2
              obtain ⟨m, c⟩ := s
              obtain ⟨key0, hkey0, hm0⟩ := hmin2 (m, c) (List.mem_cons_self _ _)
              rw [flattenS_cons] at hsort2 hpfx2
              rw [fpmInner_cons, flattenS_cons, fpmLeaf_append]
              have hsortc : List.Sorted keyLt (flattenT c) :=
                List.Pairwise.sublist (List.sublist_append_left _ _) hsort2
              have hsortr : List.Sorted keyLt (flattenS rest) :=
                List.Pairwise.sublist (List.sublist_append_right _ _) hsort2
              have hcross := (List.pairwise_append.mp hsort2).2.2
              have hpfxc : PfxOK p2 (flattenT c) :=
                PfxOK_mono (fun x hx => List.mem_append_left _ hx) hpfx2
              have hpfxr : PfxOK p2 (flattenS rest) :=
                PfxOK_mono (fun x hx => List.mem_append_right _ hx) hpfx2
              have hminrest : ∀ s ∈ rest,
                  ∃ key, firstMinSnd (flattenT s.2) = some key ∧ s.1 = minKeyOf key :=
                fun s hs => hmin2 s (List.mem_cons_of_mem _ hs)
              have hchildrest : ∀ s ∈ rest, ∀ q, List.Sorted keyLt (flattenT s.2) →
                  PfxOK q (flattenT s.2) →
                  find_pareto_minima s.2 q = fpmLeaf (flattenT s.2) q :=
                fun s hs => hchild2 s (List.mem_cons_of_mem _ hs)
              by_cases hc : minCond m p2
              · rw [if_pos hc]
                have h1 := hchild2 (m, c) (List.mem_cons_self _ _) p2 hsortc hpfxc
                have h2 : sweepState p2 (flattenT c) = m := by
                  subst hm0
                  exact state_reaches (flattenT c) p2 key0 hkey0 hc
                rw [h1, h2]
                congr 1
                apply ihs hminrest hchildrest m hsortr
                exact Or.inr ⟨key0, hm0.symm,
                  fun key hkey => hcross key0 (fms_mem hkey0) key hkey⟩
              · rw [if_neg hc]
                have hnc : ¬ minCond (minKeyOf key0) p2 := by rw [← hm0]; exact hc
                obtain ⟨hemp, hstate⟩ := skip_ok hsortc hpfxc hkey0 hnc
                rw [hemp, hstate, List.nil_append]
                exact ihs hminrest hchildrest p2 hsortr hpfxr

theorem not_dominates_self (k : PKey) : ¬ dominates (minKeyOf k) (minKeyOf k) := by
  simp [dominates]

theorem not_dominated_by_ge {k j : PKey} (h : keyLt k j ∨ k = j) :
    ¬ dominates (minKeyOf j) (minKeyOf k) := by
  rcases h with h | rfl
  · rw [keyLt] at h
    rintro ⟨h1, h2, h3⟩
    simp only [minKeyOf] at h1 h2 h3
    rcases h with ha | ⟨ha, hb | ⟨hb, hcn⟩⟩
    · omega
    · omega
    · apply h3
      simp [MinKey.mk.injEq]
      omega
  · exact not_dominates_self k

/-- A key is emitted by the leaf sweep exactly when it is
Pareto-minimal in the whole (sorted) key sequence: the running prefix
minimum after `P` decides minimality of the next key. -/
theorem emit_iff (P : List PKey) (k : PKey) (L2 : List PKey)
    (hsort : List.Sorted keyLt (P ++ k :: L2))
    (hsw : ∀ j ∈ P ++ k :: L2, j.second_weight < sentinelSecond) :
    minCond (minKeyOf k) (sweepState sentinelMin P) ↔ isParetoMinimal k (P ++ k :: L2) := by
  have hsortP : List.Sorted keyLt P :=
    List.Pairwise.sublist (List.sublist_append_left _ _) hsort
  have hsortk : List.Sorted keyLt (k :: L2) :=
    List.Pairwise.sublist (List.sublist_append_right _ _) hsort
  have hcrossPk : ∀ j ∈ P, keyLt j k :=
    fun j hj => (List.pairwise_append.mp hsort).2.2 j hj k (List.mem_cons_self _ _)
  have hlater : ∀ j ∈ L2, ¬ dominates (minKeyOf j) (minKeyOf k) := fun j hj =>
    not_dominated_by_ge (Or.inl (List.rel_of_sorted_cons hsortk j hj))
  have hredux : isParetoMinimal k (P ++ k :: L2) ↔
      ∀ j ∈ P, ¬ dominates (minKeyOf j) (minKeyOf k) := by
    unfold isParetoMinimal
    constructor
    · intro h j hj
      exact h j (List.mem_append_left _ hj)
    · intro h j hj
      rcases List.mem_append.mp hj with hj1 | hj2
      · exact h j hj1
      · rcases List.mem_cons.mp hj2 with rfl | hj3
        · exact not_dominates_self _
        · exact hlater j hj3
  rw [hredux]
  have hswP : ∀ j ∈ P, j.second_weight < sentinelSecond :=
    fun j hj => hsw j (List.mem_append_left _ hj)
  rcases state_sent_char P hswP with ⟨hP, hstate⟩ | ⟨m, hm, hstate⟩
  · subst hP
    rw [hstate]
    constructor
    · intro _ j hj
      cases hj
    · intro _
      left
      show (minKeyOf k).second_weight < sentinelMin.second_weight
      simp only [minKeyOf, sentinelMin]
      exact hsw k (by simp)
  · rw [hstate]
    have hmem := fms_mem hm
    have hminP := fms_min hm
    have hmk := hcrossPk m hmem
    rw [keyLt] at hmk
    constructor
    · intro hc j hj hdom
      obtain ⟨hd1, hd2, hd3⟩ := hdom
      simp only [minKeyOf] at hd1 hd2 hd3
      have hjm := hminP j hj
      rcases hc with hlt | ⟨hfw, hsw2⟩
      · simp only [minKeyOf] at hlt
        omega
      · simp only [minKeyOf] at hfw hsw2
        have hjsw : j.second_weight = m.second_weight := by omega
        have hjfw := fms_first_fw hsortP hm j hj hjsw
        apply hd3
        simp [MinKey.mk.injEq]
        omega
    · intro hnodom
      by_contra hnc
      simp only [minCond, minKeyOf] at hnc
      push_neg at hnc
      obtain ⟨h1, h2⟩ := hnc
      apply hnodom m hmem
      refine ⟨by simp [minKeyOf]; omega, by simp [minKeyOf]; omega, ?_⟩
      intro heq
      simp only [minKeyOf, MinKey.mk.injEq] at heq
      obtain ⟨hefw, hesw⟩ := heq
      exact h2 hefw.symm hesw.symm

/-- The leaf sweep started from the sentinel emits exactly the Pareto
frontier of a sorted key sequence, in order, as DELETE operations. -/
theorem sweep_filter : ∀ (L P : List PKey),
    List.Sorted keyLt (P ++ L) → (∀ j ∈ P ++ L, j.second_weight < sentinelSecond) →
    fpmLeaf L (sweepState sentinelMin P) =
      (L.filter (fun key => decide (isParetoMinimal key (P ++ L)))).map
        (fun key => (⟨OperTy.delete, key⟩ : POper)) := by
  intro L
  induction L with
  | nil => intro P _ _; simp [fpmLeaf]
  | cons k L2 ih =>
      intro P hsort hsw
      have hiff := emit_iff P k L2 hsort hsw
      have hassoc : (P ++ [k]) ++ L2 = P ++ k :: L2 := by
        rw [List.append_assoc, List.singleton_append]
      have hstep : sweepState sentinelMin (P ++ [k]) =
          stepMin (sweepState sentinelMin P) k := by
        rw [sweepState_append]
        rfl
      rw [fpmLeaf, List.filter_cons]
      by_cases hc : minCond (minKeyOf k) (sweepState sentinelMin P)
      · rw [if_pos hc]
        have hmin : isParetoMinimal k (P ++ k :: L2) := hiff.mp hc
        rw [if_pos (by simpa using hmin), List.map_cons]
        congr 1
        have hst2 : stepMin (sweepState sentinelMin P) k = minKeyOf k := by
          rw [stepMin, if_pos hc]
        have := ih (P ++ [k]) (by rw [hassoc]; exact hsort) (by rw [hassoc]; exact hsw)
        rw [hstep, hst2, hassoc] at this
        exact this
      · rw [if_neg hc]
        have hmin : ¬ isParetoMinimal k (P ++ k :: L2) := fun h => hc (hiff.mpr h)
        rw [if_neg (by simpa using hmin)]
        have hst2 : stepMin (sweepState sentinelMin P) k = sweepState sentinelMin P := by
          rw [stepMin, if_neg hc]
        have := ih (P ++ [k]) (by rw [hassoc]; exact hsort) (by rw [hassoc]; exact hsw)
        rw [hstep, hst2, hassoc] at this
        exact this

/-- C1 (amended): on every tree satisfying the §3 invariants (sorted
keys, correct aggregate minima) all of whose keys have
`second_weight` strictly below the sentinel's maximal second weight,
`find_pareto_minima` called with the sentinel prefix minimum emits
exactly the Pareto-minimal keys — each exactly once, in key order, as
DELETE operations.  (A key whose `second_weight` equals the sentinel
maximum is never emitted, hence the added hypothesis.) -/
theorem find_pareto_minima_frontier (t : PTree) (hok : MinimaOK t)
    (hsort : List.Sorted keyLt (flattenT t))
    (hsw : ∀ key ∈ flattenT t, key.second_weight < sentinelSecond) :
    find_pareto_minima t sentinelMin =
      ((flattenT t).filter (fun key => decide (isParetoMinimal key (flattenT t)))).map
        (fun key => (⟨OperTy.delete, key⟩ : POper)) := by
  rw [fpm_eq_fpmLeaf (sizeOf t) t sentinelMin le_rfl hok hsort
    (Or.inl (fun key hkey => hsw key hkey))]
  have := sweep_filter (flattenT t) [] (by simpa using hsort) (by simpa using hsw)
  simpa using this

/-- C1 counterexample: the single-key tree whose key has
`second_weight = numeric_limits::max()` (the sentinel's second
component).  The key is trivially Pareto-minimal, yet the emission
test `second < min->second || (first == min->first && second ==
min->second)` fails against the sentinel, so nothing is emitted. -/
theorem find_pareto_minima_cex :
    find_pareto_minima (.lf [⟨1, 1, sentinelSecond⟩]) sentinelMin = [] ∧
    isParetoMinimal ⟨1, 1, sentinelSecond⟩ (flattenT (.lf [⟨1, 1, sentinelSecond⟩])) ∧
    ⟨1, 1, sentinelSecond⟩ ∈ flattenT (.lf [⟨1, 1, sentinelSecond⟩]) := by
  refine ⟨?_, ?_, ?_⟩
  · rw [fpm_lf]
    decide
  · rw [flattenT_lf]
    decide
  · rw [flattenT_lf]
    decide

/-- Witness for the amended C1 on the spec's S4-like key set. -/
theorem find_pareto_minima_frontier_witness :
    List.Sorted keyLt
      (flattenT (.lf [⟨2, 1, 5⟩, ⟨3, 2, 4⟩, ⟨4, 3, 3⟩, ⟨5, 4, 6⟩, ⟨6, 5, 2⟩])) ∧
    find_pareto_minima (.lf [⟨2, 1, 5⟩, ⟨3, 2, 4⟩, ⟨4, 3, 3⟩, ⟨5, 4, 6⟩, ⟨6, 5, 2⟩])
        sentinelMin =
      ((flattenT (.lf [⟨2, 1, 5⟩, ⟨3, 2, 4⟩, ⟨4, 3, 3⟩, ⟨5, 4, 6⟩, ⟨6, 5, 2⟩])).filter
          (fun key => decide (isParetoMinimal key
            (flattenT (.lf [⟨2, 1, 5⟩, ⟨3, 2, 4⟩, ⟨4, 3, 3⟩, ⟨5, 4, 6⟩, ⟨6, 5, 2⟩]))))).map
        (fun key => (⟨OperTy.delete, key⟩ : POper)) := by
  have hsort : List.Sorted keyLt
      (flattenT (.lf [⟨2, 1, 5⟩, ⟨3, 2, 4⟩, ⟨4, 3, 3⟩, ⟨5, 4, 6⟩, ⟨6, 5, 2⟩])) := by
    rw [flattenT_lf]
    decide
  have hsw : ∀ key ∈
      flattenT (.lf [⟨2, 1, 5⟩, ⟨3, 2, 4⟩, ⟨4, 3, 3⟩, ⟨5, 4, 6⟩, ⟨6, 5, 2⟩]),
      key.second_weight < sentinelSecond := by
    rw [flattenT_lf]
    decide
  exact ⟨hsort, find_pareto_minima_frontier _ (MinimaOK.lf _) hsort hsw⟩
